import Mathlib

/-!
# Verification of the ktds-jinseop exam-question RAG system

Shallow embedding of the claim-relevant parts of the repository:

* `src/agents/information_validation_agent.py` — chunk validation with a
  fail-open judgment backend and a textual result parser;
* `src/mvp_main.py` — the exact-mode non-repeating question selector;
* `src/pdf_processor.py` — question-boundary extraction and table-aware
  text chunking;
* `src/vector_store.py` — the FAISS-backed document store with
  add / delete / rebuild / search operations.

Modelling conventions, used throughout:

* Python `str` is Lean `String`; character counts (`len`) agree because
  both count Unicode code points.
* Python machine floats appear only as parsed decimal literals and the
  constant `0.5`; those are represented exactly, so they are modelled
  by `ℚ`.
* `hashlib.md5` and `hash` are modelled as injective functions of their
  input string (the identity); the one hash-related counterexample below
  relies only on two *equal* hash inputs, never on a hash collision.
* External calls (the OpenAI judgment call, the embedding model, the
  FAISS nearest-neighbour search, `random.choice`) are parameters of the
  embedded functions, universally quantified in the theorems.
* `datetime.now()` timestamp fields carry no claim-relevant information
  and are omitted from the records.
* Python's `\s` character class is modelled by the ASCII whitespace
  characters (space, tab, newline, carriage return, vertical tab,
  form feed); none of the inputs considered here contain the rarer
  Unicode whitespace code points.
-/

namespace KtdsJinseop

/-- ASCII whitespace, the model of Python's `\s` class and of the
default `str.strip()`. -/
def isSpaceChar (c : Char) : Bool :=
  c = ' ' || c = '\t' || c = '\n' || c = '\r' || c = '\x0b' || c = '\x0c'

/-- Python `str.strip()` on a character list. -/
def pyStripChars (cs : List Char) : List Char :=
  ((cs.dropWhile isSpaceChar).reverse.dropWhile isSpaceChar).reverse

/-- Python `str.strip()` on a string. -/
def pyStrip (s : String) : String :=
  String.mk (pyStripChars s.data)

/-- Python `str.strip('\r')` (used on every scanned line of
`_extract_questions_from_text`). -/
def stripCR (s : String) : String :=
  String.mk (((s.data.dropWhile (· = '\r')).reverse.dropWhile (· = '\r')).reverse)

/-- First occurrence split: `some (before, after)` when the (nonempty)
separator occurs in the haystack. -/
def splitOnFirst? (sep : List Char) : List Char → Option (List Char × List Char)
  | [] => none
  | c :: rest =>
    if sep.isPrefixOf (c :: rest) then some ([], (c :: rest).drop sep.length)
    else
      match splitOnFirst? sep rest with
      | some (b, a) => some (c :: b, a)
      | none => none

/-- Python `sub in s` (substring containment) for a nonempty needle. -/
def containsSub (sep cs : List Char) : Bool :=
  (splitOnFirst? sep cs).isSome

/-! ## `src/agents/information_validation_agent.py` -/

/-- The result record produced by `_parse_validation_result` /
`_validate_chunk`. -/
structure ValidationResult where
  is_valid : Bool
  confidence : ℚ
  reason : String
deriving Repr, DecidableEq

/-- Digit list to number, exactly as decimal digits accumulate. -/
def digitsToNat (cs : List Char) : Nat :=
  cs.foldl (fun a c => a * 10 + (c.toNat - 48)) 0

/-- Python `float(s)` restricted to strings drawn from the character
class `[0-9.]` (the only shape `_parse_validation_result` can feed it):
`none` models the `ValueError` branch. -/
def pyFloatOfRun (cs : List Char) : Option ℚ :=
  if cs.all (fun c => c.isDigit || c = '.') then
    match cs.splitOn '.' with
    | [ds] => if ds ≠ [] then some (digitsToNat ds) else none
    | [a, b] =>
      if a ≠ [] ∨ b ≠ [] then
        some ((digitsToNat a : ℚ) + (digitsToNat b : ℚ) / (10 ^ b.length))
      else none
    | _ => none
  else none

/-- One attempted match of `신뢰도:\s*([0-9.]+)` at the head of `cs`:
the literal, then greedy whitespace, then a nonempty `[0-9.]` run. -/
def confMatchAt (cs : List Char) : Option (List Char) :=
  if ("신뢰도:".data).isPrefixOf cs then
    let t := cs.drop 4
    let run := (t.dropWhile isSpaceChar).takeWhile (fun c => c.isDigit || c = '.')
    if run ≠ [] then some run else none
  else none

/-- `re.search(r'신뢰도:\s*([0-9.]+)', response)`: leftmost position at
which the whole pattern matches. -/
def searchConfidence : List Char → Option (List Char)
  | [] => none
  | c :: cs =>
    match confMatchAt (c :: cs) with
    | some r => some r
    | none => searchConfidence cs

/-- One attempted match of `이유:\s*(.+?)(?:\n|$)` at the head of `cs`.
With the greedy `\s*` and the lazy nonempty group, a successful match
captures the run of non-newline characters after the whitespace when
one exists; when only whitespace remains, backtracking still succeeds
with a single whitespace character (stripped to `""` by the caller)
unless every remaining whitespace character is a newline. -/
def reasonMatchAt (cs : List Char) : Option (List Char) :=
  if ("이유:".data).isPrefixOf cs then
    let t := cs.drop 3
    let ws := t.takeWhile isSpaceChar
    let rest := t.drop ws.length
    if rest ≠ [] then some (rest.takeWhile (· ≠ '\n'))
    else if ws.any (· ≠ '\n') then
      some [(ws.reverse.dropWhile (· = '\n')).headD ' ']
    else none
  else none

/-- `re.search(r'이유:\s*(.+?)(?:\n|$)', response)`. -/
def searchReason : List Char → Option (List Char)
  | [] => none
  | c :: cs =>
    match reasonMatchAt (c :: cs) with
    | some r => some r
    | none => searchReason cs

/-- The `is_valid` extraction of `_parse_validation_result`:
`"유효" in response.split("유효성:")[1].split("\n")[0]` when the marker
occurs, else `True`.  `split(sep)[1]` is the segment between the first
and (if any) second occurrence of the separator. -/
def parseIsValid (cs : List Char) : Bool :=
  match splitOnFirst? ("유효성:".data) cs with
  | none => true
  | some (_, after) =>
    let seg :=
      match splitOnFirst? ("유효성:".data) after with
      | some (b, _) => b
      | none => after
    containsSub ("유효".data) (seg.takeWhile (· ≠ '\n'))

/-- `InformationValidationAgent._parse_validation_result`.  The
`float(...)` `ValueError` aborts into the function's `except` branch,
whose reason string carries the Python exception text. -/
def parse_validation_result (response : String) : ValidationResult :=
  let cs := response.data
  let is_valid := parseIsValid cs
  let reason :=
    match searchReason cs with
    | some g => pyStrip (String.mk g)
    | none => "검증 완료"
  match searchConfidence cs with
  | none => ⟨is_valid, 1 / 2, reason⟩
  | some run =>
    match pyFloatOfRun run with
    | some q => ⟨is_valid, q, reason⟩
    | none =>
      ⟨true, 1 / 2,
        "파싱 실패: could not convert string to float: '" ++ String.mk run ++ "'"⟩

/-- Outcome of the external judgment call inside `_validate_chunk`:
either the response text, or a raised exception with its message. -/
inductive LLMOutcome where
  | ok (content : String)
  | failure (msg : String)

/-- `InformationValidationAgent._validate_chunk`.  The cache is the
`validation_cache` dict as an association list; its key
`f"{query}_{hash(chunk)}"` is modelled with `hash` as the identity.
Returns the result together with the updated cache (the exception
branch returns without caching, exactly as the Python `except` does). -/
def validate_chunk (cache : List (String × ValidationResult))
    (query chunk : String) (outcome : LLMOutcome) :
    ValidationResult × List (String × ValidationResult) :=
  let cache_key := query ++ "_" ++ chunk
  match cache.lookup cache_key with
  | some r => (r, cache)
  | none =>
    match outcome with
    | .failure msg =>
      ({ is_valid := true, confidence := 1 / 2, reason := "검증 실패: " ++ msg }, cache)
    | .ok content =>
      let vr :=
        if content ≠ "" then parse_validation_result content
        else { is_valid := true, confidence := 1 / 2, reason := "응답이 비어있음" }
      (vr, cache ++ [(cache_key, vr)])

/-! ## `src/mvp_main.py` — the exact-mode question selector -/

/-- An extracted past-exam question as the selector sees it
(`number` is the string stored by the extractor, `source_file` the PDF
it came from; the question text plays no role in selection). -/
structure ExtractedQ where
  number : String
  source_file : String
deriving Repr, DecidableEq

/-- `unique_id = f"{source_file}_{question_number}"`. -/
def uniqueId (q : ExtractedQ) : String :=
  q.source_file ++ "_" ++ q.number

/-- The recency-history trim: after appending, `if len(...) > 10: pop(0)`. -/
def trimRecent (h : List String) : List String :=
  if 10 < h.length then h.drop 1 else h

/-- One exact-mode selection from `generate_question`
(`src/mvp_main.py`): `pool` is the shuffled candidate list
(`all_questions`), `recent` the tenant's `recent_questions` history, and
`choose` models `random.choice` (any function returning a member of a
nonempty list).  Returns the selected question and the updated history:
candidates whose `unique_id` is in the history are excluded; if that
leaves none, the history is cleared and the choice reruns over the full
pool; the chosen id is appended and the history trimmed to 10. -/
def selectStep (choose : List ExtractedQ → ExtractedQ)
    (pool : List ExtractedQ) (recent : List String) :
    ExtractedQ × List String :=
  let available := pool.filter (fun q => ¬ recent.contains (uniqueId q))
  if available.isEmpty then
    let q := choose pool
    (q, trimRecent ([] ++ [uniqueId q]))
  else
    let q := choose available
    (q, trimRecent (recent ++ [uniqueId q]))

/-- `n` consecutive exact-mode selections for one tenant; returns the
chosen `unique_id`s in order and the final history. -/
def selectRun (choose : List ExtractedQ → ExtractedQ)
    (pool : List ExtractedQ) : Nat → List String → List String × List String
  | 0, recent => ([], recent)
  | n + 1, recent =>
    let s := selectStep choose pool recent
    let r := selectRun choose pool n s.2
    (uniqueId s.1 :: r.1, r.2)

/-! ## `src/pdf_processor.py` — `_extract_and_chunk_text_from_text` -/

/-- A chunk record as built by `_extract_and_chunk_text_from_text`.
`id` is the md5 *input* string (md5 modelled as injective); the
`created_at` timestamp is omitted.  Ordinary chunks carry no
`is_table` key, modelled as `is_table = false`. -/
structure Chunk where
  id : String
  text : String
  start_pos : Nat
  end_pos : Nat
  subject : String
  is_table : Bool
deriving Repr, DecidableEq

/-- `'\\n'.join(lines)` (structural, so that proofs can evaluate it). -/
def joinNL : List String → String
  | [] => ""
  | [x] => x
  | x :: xs => x ++ "\n" ++ joinNL xs

/-- `text.split('\\n')` on character lists. -/
def splitNLChars : List Char → List (List Char)
  | [] => [[]]
  | c :: cs =>
    if c = '\n' then [] :: splitNLChars cs
    else
      match splitNLChars cs with
      | [] => [[c]]
      | h :: t => (c :: h) :: t

/-- `text.split('\\n')`, Python semantics (`"".split('\\n') == [""]`). -/
def pyLines (s : String) : List String :=
  (splitNLChars s.data).map String.mk

/-- Table-line test:
`line.strip().startswith('|') or ('|' in line.strip() and len(line.strip()) > 10)`. -/
def isTableLine (line : String) : Bool :=
  let s := pyStrip line
  ("|".data.isPrefixOf s.data) || (s.data.contains '|' && 10 < s.length)

/-- An ordinary (non-table) chunk record with ordinal `n`. -/
def mkTextChunk (subject : String) (n : Nat) (chunk_text : String) : Chunk :=
  { id := subject ++ "_" ++ toString n ++ "_" ++ String.mk (chunk_text.data.take 50),
    text := pyStrip chunk_text,
    start_pos := n * 1000,
    end_pos := n * 1000 + chunk_text.length,
    subject := subject,
    is_table := false }

/-- A table chunk record with ordinal `n`. -/
def mkTableChunk (subject : String) (n : Nat) (tableStart : Int) (table_text : String) : Chunk :=
  { id := subject ++ "_" ++ toString n ++ "_table_" ++ toString tableStart,
    text := pyStrip table_text,
    start_pos := n * 1000,
    end_pos := n * 1000 + table_text.length,
    subject := subject,
    is_table := true }

/-- The flush of the accumulated non-table buffer performed when a
table starts: kept only when the buffer is nonempty and its stripped
joined text has at least 100 characters. -/
def pendingFlush (subject : String) (chunks : List Chunk) (buf : List String) : List Chunk :=
  if buf ≠ [] ∧ 100 ≤ (pyStrip (joinNL buf)).length then
    chunks ++ [mkTextChunk subject chunks.length (joinNL buf)]
  else chunks

/-- The flush of a completed table region (the lines
`lines[table_start_line:i]`): kept as one `is_table` chunk only when
its stripped text has at least 50 characters. -/
def tableFlush (subject : String) (chunks : List Chunk) (tableStart : Int)
    (table_lines : List String) : List Chunk :=
  let table_text := joinNL table_lines
  if 50 ≤ (pyStrip table_text).length then
    chunks ++ [mkTableChunk subject chunks.length tableStart table_text]
  else chunks

/-- The size-threshold flush of the running buffer once its accumulated
length reaches 1000: kept only when the stripped text has at least 100
characters. -/
def thresholdFlush (subject : String) (chunks : List Chunk) (chunk_text : String) : List Chunk :=
  if 100 ≤ (pyStrip chunk_text).length then
    chunks ++ [mkTextChunk subject chunks.length chunk_text]
  else chunks

/-- The loop state of `_extract_and_chunk_text_from_text`:
`chunks`, `current_chunk_lines`, `current_length`, `in_table`,
`table_start_line`. -/
structure ChunkSt where
  chunks : List Chunk
  buf : List String
  curLen : Nat
  inTable : Bool
  tableStart : Int
deriving Repr, DecidableEq

def chunkInit : ChunkSt := ⟨[], [], 0, false, -1⟩

/-- One iteration of the chunking loop at line index `i`.  `lines` is
the full line list (the table flush slices `lines[table_start_line:i]`
from it, as the Python does). -/
def chunkStep (subject : String) (lines : List String) (st : ChunkSt) (i : Nat)
    (line : String) : ChunkSt :=
  let is_table_line := isTableLine line
  let st1 :=
    if is_table_line ∧ ¬ st.inTable then
      { chunks := pendingFlush subject st.chunks st.buf,
        buf := [], curLen := 0, inTable := true, tableStart := (i : Int) }
    else if ¬ is_table_line ∧ st.inTable then
      { chunks := tableFlush subject st.chunks st.tableStart
          ((lines.drop st.tableStart.toNat).take (i - st.tableStart.toNat)),
        buf := [], curLen := 0, inTable := false, tableStart := st.tableStart }
    else st
  if ¬ st1.inTable then
    let buf' := st1.buf ++ [line]
    let len' := st1.curLen + (line.length + 1)
    if 1000 ≤ len' then
      { st1 with chunks := thresholdFlush subject st1.chunks (joinNL buf'),
                 buf := [], curLen := 0 }
    else { st1 with buf := buf', curLen := len' }
  else st1

/-- The chunking loop over the enumerated lines starting at index `i`. -/
def chunkGo (subject : String) (lines : List String) : ChunkSt → Nat → List String → ChunkSt
  | st, _, [] => st
  | st, i, l :: rest => chunkGo subject lines (chunkStep subject lines st i l) (i + 1) rest

/-- The full chunking pass over a line list, including the trailing
flush of the remaining non-table buffer. -/
def chunksOfLines (subject : String) (lines : List String) : List Chunk :=
  let st := chunkGo subject lines chunkInit 0 lines
  if st.buf ≠ [] then
    let chunk_text := joinNL st.buf
    if 100 ≤ (pyStrip chunk_text).length then
      st.chunks ++ [mkTextChunk subject st.chunks.length chunk_text]
    else st.chunks
  else st.chunks

/-- `PDFProcessor._extract_and_chunk_text_from_text(full_text, subject)`. -/
def extract_and_chunk_text_from_text (full_text subject : String) : List Chunk :=
  chunksOfLines subject (pyLines full_text)

/-! ## `src/pdf_processor.py` — `_extract_questions_from_text`

The boundary patterns are anchored `re.match` regexes over a line; each
is a simple shape (optional whitespace, optional dash, a 1–3 digit
group, then literal/whitespace tails), modelled by a structural matcher
per pattern.  `\d` is modelled as the ASCII digits and `\d{1,3}` with a
following non-digit literal fails on a 4-digit run (regex backtracking
cannot succeed there), while in the keyword patterns whose tail is
entirely optional a longer run matches with its first three digits. -/

def dropSpacesL (cs : List Char) : List Char := cs.dropWhile isSpaceChar

/-- Match a literal and return the remainder. -/
def litPrefix? (lit : String) (cs : List Char) : Option (List Char) :=
  if lit.data.isPrefixOf cs then some (cs.drop lit.data.length) else none

/-- `(\d{1,3})` followed by a non-digit literal: the maximal digit run,
failing when it is empty or longer than three. -/
def digits13Exact? (cs : List Char) : Option (Nat × List Char) :=
  let ds := cs.takeWhile Char.isDigit
  if ds.length = 0 ∨ 3 < ds.length then none
  else some (digitsToNat ds, cs.drop ds.length)

/-- `(\d{1,3})` with a fully optional tail: the first three digits of a
nonempty run. -/
def digits13Prefix? (cs : List Char) : Option (Nat × List Char) :=
  let ds := cs.takeWhile Char.isDigit
  if ds.length = 0 then none
  else some (digitsToNat (ds.take 3), cs.drop (min 3 ds.length))

/-- Tail `\.\s+`. -/
def afterNum_dotSpace (r : List Char) : Bool :=
  match litPrefix? "." r with
  | some (c :: _) => isSpaceChar c
  | _ => false

/-- Tail `\)\s+`. -/
def afterNum_parenSpace (r : List Char) : Bool :=
  match litPrefix? ")" r with
  | some (c :: _) => isSpaceChar c
  | _ => false

/-- Tail `\.\s*$`. -/
def afterNum_dotEnd (r : List Char) : Bool :=
  match litPrefix? "." r with
  | some r2 => dropSpacesL r2 = []
  | none => false

/-- Tail `\.\s*w1\s*w2` for the keyword-suffixed patterns. -/
def afterNum_words (w1 w2 : String) (r : List Char) : Bool :=
  match litPrefix? "." r with
  | none => false
  | some r2 =>
    match litPrefix? w1 (dropSpacesL r2) with
    | none => false
    | some r3 => (litPrefix? w2 (dropSpacesL r3)).isSome

/-- Tail `\s*번\s*[\.\)]?\s*` (everything after `번` is optional). -/
def afterNum_beon (r : List Char) : Bool :=
  (litPrefix? "번" (dropSpacesL r)).isSome

/-- `^\s*(-\s*)?(\d{1,3})` followed by a tail check. -/
def numPat (dash : Bool) (tail : List Char → Bool) (cs : List Char) : Option Nat :=
  let cs1 := dropSpacesL cs
  let cs2? : Option (List Char) :=
    if dash then (litPrefix? "-" cs1).map dropSpacesL else some cs1
  match cs2? with
  | none => none
  | some cs2 =>
    match digits13Exact? cs2 with
    | none => none
    | some (n, r) => if tail r then some n else none

/-- `^\s*O(\d{1,3})C\s*` with bracket literals `O`, `C`. -/
def bracketPat (openB closeB : String) (cs : List Char) : Option Nat :=
  match litPrefix? openB (dropSpacesL cs) with
  | none => none
  | some r =>
    match digits13Exact? r with
    | none => none
    | some (n, r2) => if (litPrefix? closeB r2).isSome then some n else none

/-- `^\s*KW\s*(\d{1,3})\s*[\.\)]?\s*` with keyword `KW` (the tail after
the digits is fully optional). -/
def keywordPat (kw : String) (cs : List Char) : Option Nat :=
  match litPrefix? kw (dropSpacesL cs) with
  | none => none
  | some r => (digits13Prefix? (dropSpacesL r)).map (·.1)

/-- The `question_patterns` list, in source order. -/
def questionPatterns : List (List Char → Option Nat) :=
  [ numPat false afterNum_dotSpace,
    numPat true afterNum_dotSpace,
    numPat false afterNum_parenSpace,
    numPat true afterNum_parenSpace,
    numPat false afterNum_dotEnd,
    numPat true afterNum_dotEnd,
    bracketPat "(" ")",
    bracketPat "[" "]",
    bracketPat "【" "】",
    bracketPat "〈" "〉",
    keywordPat "문제",
    numPat false afterNum_beon,
    keywordPat "문항",
    numPat false (afterNum_words "다음" "중"),
    numPat false (afterNum_words "올바른" "것은"),
    numPat false (afterNum_words "틀린" "것은"),
    numPat false (afterNum_words "적절한" "것은"),
    numPat false (afterNum_words "가장" "적절한"),
    numPat true (afterNum_words "다음" "중"),
    numPat true (afterNum_words "올바른" "것은"),
    numPat true (afterNum_words "틀린" "것은"),
    numPat true (afterNum_words "적절한" "것은"),
    numPat true (afterNum_words "가장" "적절한") ]

/-- The per-line pattern loop: first pattern that matches with a number
in `1..999` wins (`break`); a match whose number fails the range check
falls through to the next pattern, as in the source. -/
def runPatterns : List (List Char → Option Nat) → List Char → Option Nat
  | [], _ => none
  | p :: ps, cs =>
    match p cs with
    | some n => if 1 ≤ n ∧ n ≤ 999 then some n else runPatterns ps cs
    | none => runPatterns ps cs

def matchQuestionNumber (line : String) : Option Nat :=
  runPatterns questionPatterns line.data

/-- A stage-1 record: `{"line_idx": …, "number": …, "line": …}`. -/
structure PotentialQ where
  line_idx : Nat
  number : Nat
  line : String
deriving Repr, DecidableEq

/-- Stage 1: scan every line (stripped of `'\r'`, skipping blanks) for
a boundary-pattern match. -/
def potentialQuestions (lines : List String) : List PotentialQ :=
  lines.enum.filterMap fun p =>
    let line := stripCR p.2
    if line = "" then none
    else (matchQuestionNumber line).map fun n => ⟨p.1, n, line⟩

/-- Stage 2a: deduplicate by question number, keeping the first
occurrence in scan order (`seen_numbers` loop). -/
def dedupByNumberGo (seen : List Nat) : List PotentialQ → List PotentialQ
  | [] => []
  | q :: rest =>
    if q.number ∈ seen then dedupByNumberGo seen rest
    else q :: dedupByNumberGo (q.number :: seen) rest

def dedupByNumber (ps : List PotentialQ) : List PotentialQ :=
  dedupByNumberGo [] ps

/-- Stage 2b: `verified_questions.sort(key=lambda x: x["number"])`.
After deduplication the numbers are pairwise distinct, so this
insertion sort produces the same list as Python's stable sort. -/
def insertByNumber (q : PotentialQ) : List PotentialQ → List PotentialQ
  | [] => [q]
  | p :: rest =>
    if q.number < p.number then q :: p :: rest else p :: insertByNumber q rest

def sortByNumber : List PotentialQ → List PotentialQ
  | [] => []
  | q :: rest => insertByNumber q (sortByNumber rest)

/-- A produced question record (`number` is stored as a string). -/
structure QuestionRec where
  number : String
  text : String
  start_line : Nat
  end_line : Int
deriving Repr, DecidableEq

/-- Stage 3, body of the loop at index `i`: the span runs from the
`i`-th surviving match's own start line to the `(i+1)`-th's start line
minus one (end of text for the last); the record joins the nonblank
stripped lines of the span and is dropped when there are none. -/
def recordAt (lines : List String) (vqs : List PotentialQ) (i : Nat) : Option QuestionRec :=
  match vqs[i]? with
  | none => none
  | some q =>
    let endIdx : Int :=
      match vqs[i + 1]? with
      | some nq => (nq.line_idx : Int) - 1
      | none => (lines.length : Int) - 1
    let stop : Nat := (min (endIdx + 1) (lines.length : Int)).toNat
    let qlines := ((List.range' q.line_idx (stop - q.line_idx)).map
        (fun j => stripCR (lines.getD j ""))).filter (fun l => l ≠ "")
    if qlines ≠ [] then
      some ⟨toString q.number, joinNL qlines, q.line_idx, endIdx⟩
    else none

/-- Stage 3: `for i, verified_q in enumerate(verified_questions)`. -/
def buildQuestionRecords (lines : List String) (vqs : List PotentialQ) : List QuestionRec :=
  (List.range vqs.length).filterMap (recordAt lines vqs)

/-- `PDFProcessor._extract_questions_from_text(full_text, …)` (the
`subject` / `original_filename` arguments only feed logging). -/
def extract_questions_from_text (full_text : String) : List QuestionRec :=
  let lines := pyLines full_text
  buildQuestionRecords lines (sortByNumber (dedupByNumber (potentialQuestions lines)))

/-- Written from the amended wording of the span rule, for the
refinement theorem: each surviving match — taken in the (number-sorted)
order of the surviving list — spans from its own detected start line up
to the start line of the *next surviving match in that number order*
minus one, or end of text for the last; the record keeps the nonblank
stripped lines of the span and is dropped when none remain. -/
def spansByNumberOrder (lines : List String) : List PotentialQ → List QuestionRec
  | [] => []
  | q :: rest =>
    let endIdx : Int :=
      match rest.head? with
      | some nq => (nq.line_idx : Int) - 1
      | none => (lines.length : Int) - 1
    let stop : Nat := (min (endIdx + 1) (lines.length : Int)).toNat
    let qlines := ((List.range' q.line_idx (stop - q.line_idx)).map
        (fun j => stripCR (lines.getD j ""))).filter (fun l => l ≠ "")
    (if qlines ≠ [] then [⟨toString q.number, joinNL qlines, q.line_idx, endIdx⟩] else [])
      ++ spansByNumberOrder lines rest

/-! ## `src/vector_store.py` — the FAISS-backed `VectorStore`

`initialized` models "`embedding_model` and `index` are both present"
(they are created together in `_initialize_models`, or neither is).
`ntotal` is `index.ntotal`; the index's vector contents feed only the
external FAISS nearest-neighbour search, whose raw output
`zip(distances[0], indices[0])` is a parameter `faissOut` of the search
functions.  Metadata records keep the claim-relevant keys (`id`,
`type` — spelled `mtype` —, `subject`, `user_id`, `embedding_id`);
`difficulty`, `question_type`, `correct_answer`, `explanation`,
`source`, `title`, `category` and the `created_at` timestamp are
omitted.  `hashlib.md5` is modelled by the injective `md5Model`. -/

/-- md5 modelled as an injective function of its input string. -/
def md5Model (s : String) : String := s

structure DocMeta where
  id : String
  mtype : String
  subject : String
  user_id : String
  embedding_id : Nat
deriving Repr, DecidableEq

structure VectorStore where
  initialized : Bool
  documents : List String
  metadata : List DocMeta
  ntotal : Nat
deriving Repr, DecidableEq

/-- Input of `add_exam_question`. -/
structure QuestionData where
  subject : String
  question : String
  options : String
  correct_answer : String
  explanation : String
deriving Repr, DecidableEq

/-- The searchable `document_content` f-string of `add_exam_question`. -/
def documentContent (q : QuestionData) : String :=
  "\n        과목: " ++ q.subject ++
  "\n        문제: " ++ q.question ++
  "\n        보기: " ++ q.options ++
  "\n        정답: " ++ q.correct_answer ++
  "\n        해설: " ++ q.explanation ++
  "\n        "

/-- `VectorStore.add_exam_question` (happy path; an uninitialized store
returns `None` without mutating). -/
def add_exam_question (vs : VectorStore) (q : QuestionData) :
    VectorStore × Option String :=
  if ¬ vs.initialized then (vs, none)
  else
    let doc_id := md5Model (q.subject ++ q.question)
    let meta : DocMeta := ⟨doc_id, "exam_question", q.subject, "", vs.documents.length⟩
    ({ vs with ntotal := vs.ntotal + 1,
               documents := vs.documents ++ [documentContent q],
               metadata := vs.metadata ++ [meta] },
     some doc_id)

/-- Input of `add_study_material`. -/
structure MaterialData where
  title : String
  content : String
  subject : String
deriving Repr, DecidableEq

/-- `VectorStore.add_study_material`. -/
def add_study_material (vs : VectorStore) (m : MaterialData) :
    VectorStore × Option String :=
  if ¬ vs.initialized then (vs, none)
  else
    let doc_id := md5Model (m.title ++ m.content)
    let meta : DocMeta := ⟨doc_id, "study_material", m.subject, "", vs.documents.length⟩
    ({ vs with ntotal := vs.ntotal + 1,
               documents := vs.documents ++ [m.content],
               metadata := vs.metadata ++ [meta] },
     some doc_id)

/-- `VectorStore.add_user_question`; `now` stands for the
`datetime.now().isoformat()` component of the hashed id. -/
def add_user_question (vs : VectorStore) (user_id : String)
    (question subject now : String) : VectorStore × Option String :=
  if ¬ vs.initialized then (vs, none)
  else
    let doc_id := md5Model (user_id ++ question ++ now)
    let meta : DocMeta := ⟨doc_id, "user_question", subject, user_id, vs.documents.length⟩
    ({ vs with ntotal := vs.ntotal + 1,
               documents := vs.documents ++ [question],
               metadata := vs.metadata ++ [meta] },
     some doc_id)

/-- The `embedding_id` reindexing loop of `_rebuild_index`
(`for i, metadata in enumerate(self.metadata): metadata["embedding_id"] = i`). -/
def reindexMeta (ms : List DocMeta) : List DocMeta :=
  ms.enum.map (fun p => { p.2 with embedding_id := p.1 })

/-- Recursion-friendly form of the reindexing loop (equal to
`reindexMeta`; used in proofs). -/
def reindexMetaGo (i : Nat) : List DocMeta → List DocMeta
  | [] => []
  | m :: rest => { m with embedding_id := i } :: reindexMetaGo (i + 1) rest

/-- `VectorStore._rebuild_index`: early-returns when the embedding
model is missing **or the document list is empty**; otherwise replaces
the index with one row per document and renumbers `embedding_id`. -/
def rebuild_index (vs : VectorStore) : VectorStore :=
  if ¬ vs.initialized ∨ vs.documents = [] then vs
  else
    { vs with ntotal := vs.documents.length,
              metadata := reindexMeta vs.metadata }

/-- `VectorStore.delete_document`: find the first metadata record with
the given id, delete the document and metadata at that position, and
rebuild.  A position beyond the document list raises `IndexError`
inside the `try`, caught into a `False` return with nothing deleted. -/
def delete_document (vs : VectorStore) (doc_id : String) : VectorStore × Bool :=
  match vs.metadata.findIdx? (fun m => m.id = doc_id) with
  | none => (vs, false)
  | some i =>
    if vs.documents.length ≤ i then (vs, false)
    else
      (rebuild_index { vs with documents := vs.documents.eraseIdx i,
                               metadata := vs.metadata.eraseIdx i },
       true)

/-- `VectorStore.delete_exam_data`: collect the ids of the tenant's
records, then delete them one by one (success even when there is
nothing to delete). -/
def delete_exam_data (vs : VectorStore) (exam_name : String) : VectorStore × Bool :=
  let doc_ids_to_delete := (vs.metadata.filter (fun m => m.subject = exam_name)).map (·.id)
  if doc_ids_to_delete = [] then (vs, true)
  else (doc_ids_to_delete.foldl (fun s i => (delete_document s i).1) vs, true)

structure SearchResult where
  id : String
  content : String
  metadata : DocMeta
  distance : ℚ
  rank : Nat
deriving Repr, DecidableEq

/-- The result loop of `search_similar_questions` over the FAISS
output; `none` models an uncaught exception inside the `try` (the
`documents[idx]` access when the document list is shorter than the
metadata list).  A result is skipped when the index is out of range,
the subject filter is set (non-empty) and differs, or the record's type
is set and is not `exam_question`; the loop stops once `n_results`
results are collected. -/
def searchQuestionsLoop (vs : VectorStore) (subject : Option String) (n_results : Nat) :
    List (ℚ × Int) → List SearchResult → Option (List SearchResult)
  | [], acc => some acc
  | (d, idx) :: rest, acc =>
    if idx < 0 ∨ (vs.metadata.length : Int) ≤ idx then
      searchQuestionsLoop vs subject n_results rest acc
    else
      match vs.metadata[idx.toNat]? with
      | none => none
      | some m =>
        if (match subject with
            | some s => s ≠ "" && m.subject ≠ s
            | none => false : Bool) then
          searchQuestionsLoop vs subject n_results rest acc
        else if m.mtype ≠ "" ∧ m.mtype ≠ "exam_question" then
          searchQuestionsLoop vs subject n_results rest acc
        else
          match vs.documents[idx.toNat]? with
          | none => none
          | some doc =>
            let acc' := acc ++ [⟨m.id, doc, m, d, acc.length + 1⟩]
            if n_results ≤ acc'.length then some acc'
            else searchQuestionsLoop vs subject n_results rest acc'

/-- `VectorStore.search_similar_questions`: empty list on an
uninitialized store, an empty document list, or any exception. -/
def search_similar_questions (vs : VectorStore) (query : String)
    (subject : Option String) (n_results : Nat) (faissOut : List (ℚ × Int)) :
    List SearchResult :=
  if ¬ vs.initialized then []
  else if vs.documents.length = 0 then []
  else
    match searchQuestionsLoop vs subject n_results faissOut [] with
    | some rs => rs
    | none => []

/-! `src/pdf_processor.py` holds its own `documents` / `metadata` /
`index` triple for chunk search, with the same shape. -/

structure ChunkStore where
  initialized : Bool
  documents : List String
  metadata : List Chunk
  ntotal : Nat
deriving Repr, DecidableEq

structure ChunkSearchResult where
  rank : Nat
  distance : ℚ
  text : String
  metadata : Chunk
deriving Repr, DecidableEq

/-- Python list indexing: negative indices wrap from the end; out of
range raises (`none`). -/
def pyGet {α : Type _} (l : List α) (idx : Int) : Option α :=
  let j : Int := if idx < 0 then (l.length : Int) + idx else idx
  if 0 ≤ j ∧ j < (l.length : Int) then l[j.toNat]? else none

/-- The result loop of `search_similar_chunks`: only an upper bound
`idx < len(metadata)` is checked (no lower bound), after which
`documents[idx]` / `metadata[idx]` use Python indexing — a negative
`idx` from FAISS padding wraps or raises; `none` models the raised
`IndexError`, caught by the caller into an empty result. -/
def searchChunksLoop (ps : ChunkStore) :
    List (ℚ × Int) → Nat → List ChunkSearchResult → Option (List ChunkSearchResult)
  | [], _, acc => some acc
  | (d, idx) :: rest, i, acc =>
    if idx < (ps.metadata.length : Int) then
      match pyGet ps.documents idx, pyGet ps.metadata idx with
      | some doc, some m =>
        searchChunksLoop ps rest (i + 1) (acc ++ [⟨i + 1, d, doc, m⟩])
      | _, _ => none
    else searchChunksLoop ps rest (i + 1) acc

/-- `PDFProcessor.search_similar_chunks`. -/
def search_similar_chunks (ps : ChunkStore) (query : String) (n_results : Nat)
    (faissOut : List (ℚ × Int)) : List ChunkSearchResult :=
  if ¬ ps.initialized then []
  else
    match searchChunksLoop ps faissOut 0 [] with
    | some rs => rs
    | none => []

end KtdsJinseop

namespace KtdsJinseop

/-! ## Theorems -/

section ValidationTheorems

/-- Parsed confidences are never negative: the matched run consists of
digits and dots only. -/
theorem pyFloatOfRun_nonneg {cs : List Char} {q : ℚ}
    (h : pyFloatOfRun cs = some q) : 0 ≤ q := by
  unfold pyFloatOfRun at h
  split at h
  · split at h
    · split at h
      · simp only [Option.some.injEq] at h
        subst h
        positivity
      · exact absurd h (by simp)
    · split at h
      · simp only [Option.some.injEq] at h
        subst h
        positivity
      · exact absurd h (by simp)
    · exact absurd h (by simp)
  · exact absurd h (by simp)

/-- **C3** — fail-open validation: for every query and chunk (with no
cached result for the pair), a judgment call that raises yields
`is_valid = true`, `confidence = 0.5` and a reason naming the failure,
and an empty response likewise yields `is_valid = true`,
`confidence = 0.5`; a broken judgment backend never rejects a chunk. -/
theorem validate_chunk_fail_open (cache : List (String × ValidationResult))
    (query chunk : String)
    (hmiss : cache.lookup (query ++ "_" ++ chunk) = none) :
    (∀ msg, (validate_chunk cache query chunk (.failure msg)).1 =
      ⟨true, 1 / 2, "검증 실패: " ++ msg⟩) ∧
    (validate_chunk cache query chunk (.ok "")).1 =
      ⟨true, 1 / 2, "응답이 비어있음"⟩ := by
  constructor
  · intro msg
    simp [validate_chunk, hmiss]
  · simp [validate_chunk, hmiss]

/-- Witness for C3 at the empty cache with a concrete failure. -/
theorem validate_chunk_fail_open_witness :
    (validate_chunk [] "q" "c" (.failure "boom")).1 =
      ⟨true, 1 / 2, "검증 실패: boom"⟩ ∧
    (validate_chunk [] "q" "c" (.ok "")).1 =
      ⟨true, 1 / 2, "응답이 비어있음"⟩ :=
  ⟨(validate_chunk_fail_open [] "q" "c" rfl).1 "boom",
   (validate_chunk_fail_open [] "q" "c" rfl).2⟩

/-- **C9, counterexample** — the response `"신뢰도: 5"` parses to
confidence `5`, outside `[0, 1]`: the parser never clamps the matched
number. -/
theorem parse_validation_confidence_counterexample :
    (parse_validation_result "신뢰도: 5").confidence = 5 ∧
    ¬ (parse_validation_result "신뢰도: 5").confidence ≤ 1 := by
  constructor
  · decide
  · decide

/-- **C9, amended** — for every judgment-response text the parser
produces a confidence that is a nonnegative rational (with `is_valid` a
boolean and `reason` a string by construction); the default on a
missing or unparsable number is `0.5`, but a matched number above `1`
is passed through unclamped. -/
theorem parse_validation_confidence_nonneg (response : String) :
    0 ≤ (parse_validation_result response).confidence := by
  unfold parse_validation_result
  cases h : searchConfidence response.data with
  | none => simp only [h]; norm_num
  | some run =>
    cases h2 : pyFloatOfRun run with
    | none => simp only [h, h2]; norm_num
    | some q => simp only [h, h2]; exact pyFloatOfRun_nonneg h2

end ValidationTheorems

section SelectorTheorems

/-- With at least 11 distinct `unique_id`s in the pool and a history of
at most 10 entries, the recency exclusion always leaves a candidate. -/
theorem selector_available_ne_nil (pool : List ExtractedQ) (recent : List String)
    (hpool : 11 ≤ ((pool.map uniqueId).dedup).length)
    (hr : recent.length ≤ 10) :
    (pool.filter (fun q => ¬ recent.contains (uniqueId q))).isEmpty = false := by
  by_contra hne
  have hnil : pool.filter (fun q => ¬ recent.contains (uniqueId q)) = [] := by
    cases hfe : pool.filter (fun q => ¬ recent.contains (uniqueId q)) with
    | nil => rfl
    | cons a t => rw [hfe] at hne; simp [List.isEmpty] at hne
  have hall : ∀ q ∈ pool, uniqueId q ∈ recent := by
    intro q hq
    have := List.filter_eq_nil_iff.mp hnil q hq
    simpa using this
  have hsub : (pool.map uniqueId).dedup ⊆ recent := by
    intro x hx
    obtain ⟨q, hq, rfl⟩ := List.mem_map.mp (List.mem_dedup.mp hx)
    exact hall q hq
  have := (List.subperm_of_subset (List.nodup_dedup _) hsub).length_le
  omega

/-- Reduction of `selectStep` when a candidate survives the exclusion. -/
theorem selectStep_of_ne (choose : List ExtractedQ → ExtractedQ) (pool : List ExtractedQ)
    (recent : List String)
    (hne : (pool.filter (fun q => ¬ recent.contains (uniqueId q))).isEmpty = false) :
    selectStep choose pool recent =
      (choose (pool.filter (fun q => ¬ recent.contains (uniqueId q))),
       trimRecent (recent ++
         [uniqueId (choose (pool.filter (fun q => ¬ recent.contains (uniqueId q))))])) := by
  simp only [selectStep]
  rw [hne]
  simp

/-- Reduction of `selectStep` when the exclusion empties the pool: the
history is cleared and the full pool is rechosen from. -/
theorem selectStep_of_empty (choose : List ExtractedQ → ExtractedQ) (pool : List ExtractedQ)
    (recent : List String)
    (hemp : (pool.filter (fun q => ¬ recent.contains (uniqueId q))).isEmpty = true) :
    selectStep choose pool recent = (choose pool, [uniqueId (choose pool)]) := by
  simp only [selectStep]
  rw [hemp]
  simp [trimRecent]

theorem suffix_drop_one {α : Type*} {S h : List α} (hs : S <:+ h)
    (hlt : S.length < h.length) : S <:+ h.drop 1 := by
  obtain ⟨t, rfl⟩ := hs
  cases t with
  | nil => simp at hlt
  | cons a t' => simp

theorem suffix_trimRecent {S h : List String} (hs : S <:+ h)
    (hS : S.length ≤ 10) (hh : h.length ≤ 11) : S <:+ trimRecent h := by
  unfold trimRecent
  split
  · exact suffix_drop_one hs (by omega)
  · exact hs

theorem trimRecent_length {h : List String} (hh : h.length ≤ 11) :
    (trimRecent h).length ≤ 10 := by
  unfold trimRecent
  split
  · simp only [List.length_drop]
    omega
  · omega

/-- Core induction for C2: starting from a history of length ≤ 10 that
has the already-selected window ids `S` as a suffix, a run of
`n ≤ 10 - |S|` further selections yields pairwise-distinct ids, none of
which lies in `S`. -/
theorem selectRun_nodup_aux (choose : List ExtractedQ → ExtractedQ)
    (pool : List ExtractedQ)
    (hch : ∀ l : List ExtractedQ, l ≠ [] → choose l ∈ l)
    (hpool : 11 ≤ ((pool.map uniqueId).dedup).length) :
    ∀ (n : Nat) (recent S : List String), recent.length ≤ 10 → S <:+ recent →
      S.length + n ≤ 10 →
      (selectRun choose pool n recent).1.Nodup ∧
      ∀ x ∈ (selectRun choose pool n recent).1, x ∉ S := by
  intro n
  induction n with
  | zero => intro recent S _ _ _; simp [selectRun]
  | succ n ih =>
    intro recent S hr hSuf hcount
    have hne := selector_available_ne_nil pool recent hpool hr
    have hfilter_ne : pool.filter (fun q => ¬ recent.contains (uniqueId q)) ≠ [] := by
      intro hcon
      rw [hcon] at hne
      simp [List.isEmpty] at hne
    have hcmem := hch _ hfilter_ne
    set c := choose (pool.filter (fun q => ¬ recent.contains (uniqueId q))) with hc
    have hcnotin : uniqueId c ∉ recent := by
      have := (List.mem_filter.mp hcmem).2
      simpa using this
    have hstep : selectStep choose pool recent =
        (c, trimRecent (recent ++ [uniqueId c])) :=
      selectStep_of_ne choose pool recent hne
    have hlen11 : (recent ++ [uniqueId c]).length ≤ 11 := by simp; omega
    have hr' : (trimRecent (recent ++ [uniqueId c])).length ≤ 10 :=
      trimRecent_length hlen11
    have hSuf' : (S ++ [uniqueId c]) <:+ trimRecent (recent ++ [uniqueId c]) := by
      apply suffix_trimRecent _ (by simp; omega) hlen11
      obtain ⟨t, rfl⟩ := hSuf
      exact ⟨t, by simp⟩
    have hcount' : (S ++ [uniqueId c]).length + n ≤ 10 := by simp; omega
    obtain ⟨hnd', hnotin'⟩ := ih (trimRecent (recent ++ [uniqueId c])) (S ++ [uniqueId c]) hr' hSuf' hcount'
    have hrun : selectRun choose pool (n + 1) recent =
        (uniqueId c :: (selectRun choose pool n (trimRecent (recent ++ [uniqueId c]))).1,
         (selectRun choose pool n (trimRecent (recent ++ [uniqueId c]))).2) := by
      simp only [selectRun, hstep]
    rw [hrun]
    constructor
    · rw [List.nodup_cons]
      refine ⟨fun hmem => ?_, hnd'⟩
      exact hnotin' _ hmem (by simp)
    · intro x hx
      rcases List.mem_cons.mp hx with h1 | h1
      · subst h1
        exact fun hS => hcnotin (hSuf.subset hS)
      · exact fun hS => hnotin' _ h1 (by simp [hS])

/-- **C2** — over a pool with at least 11 distinct `unique_id`s and any
starting history of at most 10 entries, 10 consecutive exact-mode
selections return pairwise-distinct `unique_id`s; and whenever the
recency exclusion leaves zero candidates, the history is cleared
entirely (the new history is just the freshly chosen id) and the choice
reruns over the full candidate pool. -/
theorem generate_question_exact_no_repeat (pool : List ExtractedQ)
    (choose : List ExtractedQ → ExtractedQ)
    (hch : ∀ l : List ExtractedQ, l ≠ [] → choose l ∈ l)
    (hpool : 11 ≤ ((pool.map uniqueId).dedup).length)
    (recent0 : List String) (hr : recent0.length ≤ 10) :
    (selectRun choose pool 10 recent0).1.Nodup ∧
    ∀ recent : List String,
      (pool.filter (fun q => ¬ recent.contains (uniqueId q))).isEmpty = true →
      selectStep choose pool recent = (choose pool, [uniqueId (choose pool)]) ∧
      choose pool ∈ pool := by
  constructor
  · exact (selectRun_nodup_aux choose pool hch hpool 10 recent0 []
      hr List.nil_suffix (by simp)).1
  · intro recent hemp
    have hpool_ne : pool ≠ [] := by
      intro hcon
      subst hcon
      simp at hpool
    exact ⟨selectStep_of_empty choose pool recent hemp, hch _ hpool_ne⟩

/-- Witness for C2: a pool of 11 questions from one file, the
head-choosing selector, and the empty starting history. -/
theorem generate_question_exact_no_repeat_witness :
    (selectRun (fun l => l.headD ⟨"", ""⟩)
      [⟨"1", "f"⟩, ⟨"2", "f"⟩, ⟨"3", "f"⟩, ⟨"4", "f"⟩, ⟨"5", "f"⟩, ⟨"6", "f"⟩,
       ⟨"7", "f"⟩, ⟨"8", "f"⟩, ⟨"9", "f"⟩, ⟨"10", "f"⟩, ⟨"11", "f"⟩] 10 []).1.Nodup :=
  (generate_question_exact_no_repeat _ _
    (fun l hl => by cases l with
      | nil => exact absurd rfl hl
      | cons a t => simp [List.headD])
    (by decide) [] (by decide)).1

end SelectorTheorems

section ChunkerTheorems

/-- A table line seen while already inside a table changes nothing. -/
theorem chunkStep_table_inTable (subject : String) (lines : List String) (st : ChunkSt)
    (i : Nat) (line : String) (htab : isTableLine line = true) (hin : st.inTable = true) :
    chunkStep subject lines st i line = st := by
  simp [chunkStep, htab, hin]

/-- A table line seen outside a table flushes the pending buffer and
enters table mode at the current index. -/
theorem chunkStep_enter_table (subject : String) (lines : List String) (st : ChunkSt)
    (i : Nat) (line : String) (htab : isTableLine line = true) (hin : st.inTable = false) :
    chunkStep subject lines st i line =
      ⟨pendingFlush subject st.chunks st.buf, [], 0, true, (i : Int)⟩ := by
  simp [chunkStep, htab, hin]

/-- A non-table line seen inside a table flushes the whole table region
as one (conditional) `is_table` chunk, then accumulates the line. -/
theorem chunkStep_leave_table (subject : String) (lines : List String) (st : ChunkSt)
    (i : Nat) (line : String) (htab : isTableLine line = false) (hin : st.inTable = true) :
    chunkStep subject lines st i line =
      (let chunks1 := tableFlush subject st.chunks st.tableStart
          ((lines.drop st.tableStart.toNat).take (i - st.tableStart.toNat))
       if 1000 ≤ line.length + 1 then
         ⟨thresholdFlush subject chunks1 (joinNL [line]), [], 0, false, st.tableStart⟩
       else ⟨chunks1, [line], line.length + 1, false, st.tableStart⟩) := by
  simp [chunkStep, htab, hin]

/-- Table lines are no-ops for a whole run while inside a table. -/
theorem chunkGo_tableLines (subject : String) (lines : List String) :
    ∀ (ts : List String) (st : ChunkSt) (i : Nat),
      (∀ t ∈ ts, isTableLine t = true) → st.inTable = true →
      chunkGo subject lines st i ts = st := by
  intro ts
  induction ts with
  | nil => intro st i _ _; rfl
  | cons t ts' ih =>
    intro st i htab hin
    rw [chunkGo, chunkStep_table_inTable subject lines st i t (htab t (by simp)) hin]
    exact ih st (i + 1) (fun x hx => htab x (by simp [hx])) hin

/-- Splitting a run of the chunking loop at a list append. -/
theorem chunkGo_append (subject : String) (lines : List String) :
    ∀ (xs ys : List String) (st : ChunkSt) (i : Nat),
      chunkGo subject lines st i (xs ++ ys) =
        chunkGo subject lines (chunkGo subject lines st i xs) (i + xs.length) ys := by
  intro xs
  induction xs with
  | nil => intro ys st i; simp [chunkGo]
  | cons x xs' ih =>
    intro ys st i
    show chunkGo subject lines (chunkStep subject lines st i x) (i + 1) (xs' ++ ys) = _
    rw [ih]
    show _ = chunkGo subject lines
      (chunkGo subject lines (chunkStep subject lines st i x) (i + 1) xs')
      (i + (xs'.length + 1)) ys
    have hidx : i + 1 + xs'.length = i + (xs'.length + 1) := by omega
    rw [hidx]

/-- A slice that stays inside the first summand of an append. -/
theorem slice_append_eq {α : Type*} (ls ts : List α) (k i : Nat) (hi : i ≤ ls.length) :
    ((ls ++ ts).drop k).take (i - k) = (ls.drop k).take (i - k) := by
  rcases le_or_lt i k with hk | hk
  · have : i - k = 0 := by omega
    simp [this]
  · rw [List.drop_append_eq_append_drop]
    rw [List.take_append_of_le_length]
    simp only [List.length_drop]
    omega

/-- A loop step at an index inside the first summand does not look at
the appended tail of the line list. -/
theorem chunkStep_lines_agree (subject : String) (ls ts : List String) (st : ChunkSt)
    (i : Nat) (line : String) (hi : i ≤ ls.length) :
    chunkStep subject (ls ++ ts) st i line = chunkStep subject ls st i line := by
  have hs := slice_append_eq ls ts st.tableStart.toNat i hi
  simp only [chunkStep, hs]

/-- A loop run that stays inside the first summand does not look at the
appended tail of the line list. -/
theorem chunkGo_lines_agree (subject : String) (ls ts : List String) :
    ∀ (xs : List String) (st : ChunkSt) (i : Nat), i + xs.length ≤ ls.length →
      chunkGo subject (ls ++ ts) st i xs = chunkGo subject ls st i xs := by
  intro xs
  induction xs with
  | nil => intro st i _; rfl
  | cons x xs' ih =>
    intro st i hle
    simp only [List.length_cons] at hle
    rw [chunkGo, chunkGo, chunkStep_lines_agree subject ls ts st i x (by omega)]
    exact ih _ (i + 1) (by omega)

/-- The trailing flush of `chunksOfLines` coincides with the
table-start flush. -/
theorem chunksOfLines_eq_pendingFlush (subject : String) (lines : List String) :
    chunksOfLines subject lines =
      pendingFlush subject (chunkGo subject lines chunkInit 0 lines).chunks
        (chunkGo subject lines chunkInit 0 lines).buf := by
  unfold chunksOfLines pendingFlush
  by_cases hb : (chunkGo subject lines chunkInit 0 lines).buf = []
  · simp [hb]
  · by_cases hlen :
      100 ≤ (pyStrip (joinNL (chunkGo subject lines chunkInit 0 lines).buf)).length
    · simp [hb, hlen]
    · simp [hb, hlen]

/-- **C10** — a table region at the very end of the input is silently
dropped: appending trailing table lines to any line list leaves the
produced chunk list unchanged (so no chunk ever contains them), and the
same holds for any full text whose line split ends in table lines. -/
theorem trailing_table_region_dropped (subject : String) (ls ts : List String)
    (htab : ∀ t ∈ ts, isTableLine t = true) :
    chunksOfLines subject (ls ++ ts) = chunksOfLines subject ls ∧
    ∀ full_text : String, pyLines full_text = ls ++ ts →
      extract_and_chunk_text_from_text full_text subject = chunksOfLines subject ls := by
  have hmain : chunksOfLines subject (ls ++ ts) = chunksOfLines subject ls := by
    have hls : chunkGo subject (ls ++ ts) chunkInit 0 ls =
        chunkGo subject ls chunkInit 0 ls :=
      chunkGo_lines_agree subject ls ts ls chunkInit 0 (by omega)
    have hsplit : chunkGo subject (ls ++ ts) chunkInit 0 (ls ++ ts) =
        chunkGo subject (ls ++ ts) (chunkGo subject ls chunkInit 0 ls) ls.length ts := by
      rw [chunkGo_append subject (ls ++ ts) ls ts chunkInit 0, hls]
      norm_num
    rw [chunksOfLines_eq_pendingFlush, chunksOfLines_eq_pendingFlush, hsplit]
    by_cases hin : (chunkGo subject ls chunkInit 0 ls).inTable
    · rw [chunkGo_tableLines subject (ls ++ ts) ts _ ls.length htab hin]
    · cases ts with
      | nil => rfl
      | cons t ts' =>
        rw [chunkGo,
          chunkStep_enter_table subject (ls ++ t :: ts') _ ls.length t
            (htab t (by simp)) (by simpa using hin),
          chunkGo_tableLines subject (ls ++ t :: ts') ts' _ (ls.length + 1)
            (fun x hx => htab x (by simp [hx])) rfl]
        simp [pendingFlush]
  exact ⟨hmain, fun full_text hft => by
    rw [extract_and_chunk_text_from_text, hft, hmain]⟩

/-- Witness for C10: a line of text followed by one trailing table
line; the chunk output equals that of the text alone. -/
theorem trailing_table_region_dropped_witness :
    chunksOfLines "s" (["x"] ++ ["|a|b|"]) = chunksOfLines "s" ["x"] :=
  (trailing_table_region_dropped "s" ["x"] ["|a|b|"]
    (by intro t ht; simp at ht; subst ht; decide)).1

/-- **C8, counterexample** — the two-line text `"|a|b|\nx"` contains a
table region (line 0) that is left at line 1, yet the chunk output is
empty: the table region's stripped text has fewer than 50 characters,
so it is dropped rather than emitted as an `is_table` chunk. -/
theorem table_region_small_dropped_counterexample :
    extract_and_chunk_text_from_text "|a|b|\nx" "s" = [] := by
  decide

/-- **C8, amended** — when the chunk builder leaves a table region (a
nonempty block of table lines followed by a non-table line), the entire
region is flushed through `tableFlush`: it is emitted as exactly one
chunk flagged `is_table = true` whose text is the stripped join of the
whole region **provided** that stripped text has at least 50
characters, and is dropped entirely otherwise; in neither case is the
region split across chunks. -/
theorem table_region_flushed_as_single_chunk (subject : String) (ls ts : List String)
    (c : String) (rest : List String)
    (hls : (chunkGo subject (ls ++ ts ++ c :: rest) chunkInit 0 ls).inTable = false)
    (hts : ts ≠ []) (htab : ∀ t ∈ ts, isTableLine t = true)
    (hc : isTableLine c = false) :
    (chunkGo subject (ls ++ ts ++ c :: rest) chunkInit 0 (ls ++ ts ++ [c])).chunks =
      (let st := chunkGo subject (ls ++ ts ++ c :: rest) chunkInit 0 ls
       let pre := pendingFlush subject st.chunks st.buf
       let tableOpt :=
         if 50 ≤ (pyStrip (joinNL ts)).length then
           [mkTableChunk subject pre.length (ls.length : Int) (joinNL ts)]
         else []
       let cOpt :=
         if 1000 ≤ c.length + 1 then
           (if 100 ≤ (pyStrip c).length then
             [mkTextChunk subject (pre ++ tableOpt).length c]
           else [])
         else []
       pre ++ tableOpt ++ cOpt) := by
  cases ts with
  | nil => exact absurd rfl hts
  | cons t ts' =>
    have hsplit :
        chunkGo subject (ls ++ (t :: ts') ++ c :: rest) chunkInit 0 (ls ++ (t :: ts') ++ [c]) =
          chunkGo subject (ls ++ (t :: ts') ++ c :: rest)
            (chunkGo subject (ls ++ (t :: ts') ++ c :: rest)
              (chunkGo subject (ls ++ (t :: ts') ++ c :: rest) chunkInit 0 ls)
              (0 + ls.length) (t :: ts'))
            (0 + (ls ++ t :: ts').length) [c] := by
      rw [chunkGo_append, chunkGo_append]
    have h2 :
        chunkGo subject (ls ++ (t :: ts') ++ c :: rest)
          (chunkGo subject (ls ++ (t :: ts') ++ c :: rest) chunkInit 0 ls)
          (0 + ls.length) (t :: ts') =
        ⟨pendingFlush subject
            (chunkGo subject (ls ++ (t :: ts') ++ c :: rest) chunkInit 0 ls).chunks
            (chunkGo subject (ls ++ (t :: ts') ++ c :: rest) chunkInit 0 ls).buf,
          [], 0, true, ((0 + ls.length : Nat) : Int)⟩ := by
      rw [chunkGo, chunkStep_enter_table _ _ _ _ _ (htab t (by simp)) hls]
      exact chunkGo_tableLines _ _ ts' _ _ (fun x hx => htab x (by simp [hx])) rfl
    show (chunkGo subject (ls ++ (t :: ts') ++ c :: rest) chunkInit 0
        (ls ++ (t :: ts') ++ [c])).chunks = _
    rw [hsplit, h2]
    show (chunkStep subject (ls ++ (t :: ts') ++ c :: rest)
        ⟨pendingFlush subject
            (chunkGo subject (ls ++ (t :: ts') ++ c :: rest) chunkInit 0 ls).chunks
            (chunkGo subject (ls ++ (t :: ts') ++ c :: rest) chunkInit 0 ls).buf,
          [], 0, true, ((0 + ls.length : Nat) : Int)⟩
        (0 + (ls ++ t :: ts').length) c).chunks = _
    rw [chunkStep_leave_table _ _ _ _ _ hc rfl]
    have hslice :
        (((ls ++ (t :: ts') ++ c :: rest).drop
            (((0 + ls.length : Nat) : Int)).toNat).take
            (0 + (ls ++ t :: ts').length - (((0 + ls.length : Nat) : Int)).toNat)) =
          t :: ts' := by
      rw [Int.toNat_natCast]
      simp only [List.length_append, Nat.zero_add]
      have h1 : ls.length + (t :: ts').length - ls.length = (t :: ts').length := by omega
      rw [h1, List.append_assoc, List.drop_left, List.take_left]
    rw [hslice]
    by_cases h1000 : 1000 ≤ c.length + 1
    · simp only [h1000, if_true]
      show thresholdFlush subject
          (tableFlush subject
            (pendingFlush subject
              (chunkGo subject (ls ++ (t :: ts') ++ c :: rest) chunkInit 0 ls).chunks
              (chunkGo subject (ls ++ (t :: ts') ++ c :: rest) chunkInit 0 ls).buf)
            (((0 + ls.length : Nat) : Int)) (t :: ts')) (joinNL [c]) = _
      unfold tableFlush thresholdFlush
      have hj : joinNL [c] = c := rfl
      rw [hj]
      by_cases h50 : 50 ≤ (pyStrip (joinNL (t :: ts'))).length
      · by_cases h100 : 100 ≤ (pyStrip c).length
        · simp [h50, h100, h1000]
        · simp [h50, h100, h1000]
      · by_cases h100 : 100 ≤ (pyStrip c).length
        · simp [h50, h100, h1000]
        · simp [h50, h100, h1000]
    · simp only [h1000, if_false]
      show tableFlush subject
          (pendingFlush subject
            (chunkGo subject (ls ++ (t :: ts') ++ c :: rest) chunkInit 0 ls).chunks
            (chunkGo subject (ls ++ (t :: ts') ++ c :: rest) chunkInit 0 ls).buf)
          (((0 + ls.length : Nat) : Int)) (t :: ts') = _
      unfold tableFlush
      by_cases h50 : 50 ≤ (pyStrip (joinNL (t :: ts'))).length
      · simp [h50, h1000]
      · simp [h50, h1000]

/-- Witness for C8: the empty prefix, one 60-character table line, and
the non-table line `"x"`; the region is flushed as one table chunk. -/
theorem table_region_flushed_as_single_chunk_witness :
    (chunkGo "s" (([] : List String) ++ ["|aaaaaaaaaaaaaaaaaaaaaaaaaaaaaaaaaaaaaaaaaaaaaaaaaaaaaaaaaa|"] ++ "x" :: [])
        chunkInit 0 (([] : List String) ++ ["|aaaaaaaaaaaaaaaaaaaaaaaaaaaaaaaaaaaaaaaaaaaaaaaaaaaaaaaaaa|"] ++ ["x"])).chunks =
      [mkTableChunk "s" 0 ((0 : Nat) : Int) "|aaaaaaaaaaaaaaaaaaaaaaaaaaaaaaaaaaaaaaaaaaaaaaaaaaaaaaaaaa|"] :=
  (table_region_flushed_as_single_chunk "s" [] ["|aaaaaaaaaaaaaaaaaaaaaaaaaaaaaaaaaaaaaaaaaaaaaaaaaaaaaaaaaa|"] "x" []
    (by decide) (by decide) (by decide) (by decide)).trans (by decide)

end ChunkerTheorems

section ExtractorTheorems

/-- Full characterisation of the `seen_numbers` dedup loop: the kept
numbers are pairwise distinct and outside `seen`, the kept records form
a sublist, every number of the input is covered, and each kept record
is the first occurrence of its number among the not-yet-seen ones. -/
theorem dedupByNumberGo_spec (ps : List PotentialQ) : ∀ seen : List Nat,
    ((dedupByNumberGo seen ps).map (·.number)).Nodup
    ∧ (∀ v ∈ dedupByNumberGo seen ps, v.number ∉ seen)
    ∧ List.Sublist (dedupByNumberGo seen ps) ps
    ∧ (∀ p ∈ ps, p.number ∈ seen ∨ ∃ v ∈ dedupByNumberGo seen ps, v.number = p.number)
    ∧ (∀ v ∈ dedupByNumberGo seen ps, ∃ pre post, ps = pre ++ v :: post ∧
        ∀ p ∈ pre, p.number ∉ seen → p.number ≠ v.number) := by
  induction ps with
  | nil => intro seen; simp [dedupByNumberGo]
  | cons q rest ih =>
    intro seen
    by_cases hq : q.number ∈ seen
    · simp only [dedupByNumberGo, if_pos hq]
      obtain ⟨h1, h2, h3, h4, h5⟩ := ih seen
      refine ⟨h1, h2, h3.cons _, ?_, ?_⟩
      · intro p hp
        rcases List.mem_cons.mp hp with rfl | hp'
        · exact Or.inl hq
        · exact h4 p hp'
      · intro v hv
        obtain ⟨pre, post, heq, hpre⟩ := h5 v hv
        refine ⟨q :: pre, post, by rw [heq, List.cons_append], ?_⟩
        intro p hp hpseen
        rcases List.mem_cons.mp hp with rfl | hp'
        · exact absurd hq hpseen
        · exact hpre p hp' hpseen
    · simp only [dedupByNumberGo, if_neg hq]
      obtain ⟨h1, h2, h3, h4, h5⟩ := ih (q.number :: seen)
      have hqtail : ∀ v ∈ dedupByNumberGo (q.number :: seen) rest, v.number ≠ q.number := by
        intro v hv hcon
        exact h2 v hv (by simp [hcon])
      refine ⟨?_, ?_, h3.cons₂ _, ?_, ?_⟩
      · rw [List.map_cons, List.nodup_cons]
        exact ⟨fun hmem => by
          obtain ⟨v, hv, hvn⟩ := List.mem_map.mp hmem
          exact hqtail v hv hvn, h1⟩
      · intro v hv
        rcases List.mem_cons.mp hv with rfl | hv'
        · exact hq
        · intro hcon
          exact h2 v hv' (by simp [hcon])
      · intro p hp
        rcases List.mem_cons.mp hp with rfl | hp'
        · exact Or.inr ⟨p, by simp, rfl⟩
        · rcases h4 p hp' with hseen' | ⟨v, hv, hvn⟩
          · rcases List.mem_cons.mp hseen' with hpq | hps
            · exact Or.inr ⟨q, by simp, hpq.symm⟩
            · exact Or.inl hps
          · exact Or.inr ⟨v, by simp [hv], hvn⟩
      · intro v hv
        rcases List.mem_cons.mp hv with rfl | hv'
        · exact ⟨[], rest, rfl, by simp⟩
        · obtain ⟨pre, post, heq, hpre⟩ := h5 v hv'
          refine ⟨q :: pre, post, by rw [heq, List.cons_append], ?_⟩
          intro p hp hpseen
          rcases List.mem_cons.mp hp with rfl | hp'
          · exact fun hcon => hqtail v hv' hcon.symm
          · intro hcon
            by_cases hpq : p.number = q.number
            · exact hqtail v hv' (hcon.symm.trans hpq)
            · exact hpre p hp' (by simp [List.mem_cons, hpq, hpseen]) hcon

/-- **C5** — deduplication keeps only the first occurrence, in scan
order, of each question number (later same-numbered matches are
discarded and their lines absorbed into the preceding record's span);
in particular `"1. a\n1. b\n2. c"` yields exactly the two records
`1` (spanning both `1.` lines) and `2`. -/
theorem duplicate_numbers_keep_first (full_text : String) :
    ((dedupByNumber (potentialQuestions (pyLines full_text))).map (·.number)).Nodup
    ∧ (∀ v ∈ dedupByNumber (potentialQuestions (pyLines full_text)),
        ∃ pre post, potentialQuestions (pyLines full_text) = pre ++ v :: post ∧
          ∀ p ∈ pre, p.number ≠ v.number)
    ∧ extract_questions_from_text "1. a\n1. b\n2. c" =
        [⟨"1", "1. a\n1. b", 0, 1⟩, ⟨"2", "2. c", 2, 2⟩] := by
  obtain ⟨h1, _, _, _, h5⟩ := dedupByNumberGo_spec (potentialQuestions (pyLines full_text)) []
  refine ⟨h1, ?_, by decide⟩
  intro v hv
  obtain ⟨pre, post, heq, hpre⟩ := h5 v hv
  exact ⟨pre, post, heq, fun p hp => hpre p hp (by simp)⟩

/-- Witness for C5 at a concrete text. -/
theorem duplicate_numbers_keep_first_witness :
    extract_questions_from_text "1. a\n1. b\n2. c" =
      [⟨"1", "1. a\n1. b", 0, 1⟩, ⟨"2", "2. c", 2, 2⟩] :=
  (duplicate_numbers_keep_first "").2.2

theorem recordAt_cons (lines : List String) (q : PotentialQ) (rest : List PotentialQ)
    (i : Nat) : recordAt lines (q :: rest) (i + 1) = recordAt lines rest i := by
  simp only [recordAt, List.getElem?_cons_succ]

theorem spans_cons_eq_match (lines : List String) (q : PotentialQ) (rest : List PotentialQ) :
    spansByNumberOrder lines (q :: rest) =
      (match recordAt lines (q :: rest) 0 with
       | none => spansByNumberOrder lines rest
       | some b => b :: spansByNumberOrder lines rest) := by
  rw [spansByNumberOrder]
  simp only [recordAt, List.getElem?_cons_zero, List.getElem?_cons_succ,
    List.head?_eq_getElem?]
  split
  · simp_all
  · simp_all

/-- The index-based stage-3 loop coincides with the adjacent-pair
formulation of the span rule. -/
theorem buildQuestionRecords_eq_spans (lines : List String) :
    ∀ vqs : List PotentialQ, buildQuestionRecords lines vqs = spansByNumberOrder lines vqs := by
  intro vqs
  induction vqs with
  | nil => rfl
  | cons q rest ih =>
    rw [buildQuestionRecords, List.length_cons, List.range_succ_eq_map,
      List.filterMap_cons, List.filterMap_map]
    have hcomp : recordAt lines (q :: rest) ∘ Nat.succ = recordAt lines rest := by
      funext i
      exact recordAt_cons lines q rest i
    rw [hcomp]
    rw [show List.filterMap (recordAt lines rest) (List.range rest.length) =
      buildQuestionRecords lines rest from rfl, ih, spans_cons_eq_match]
    cases recordAt lines (q :: rest) 0 <;> rfl

/-- **C4, counterexample** — in `"2. x\n1. y\n3. z"` all three lines
are surviving matches; per the claim, the match numbered `1` (line 1)
would span exactly line 1 (up to the next match in scan order at line
2), and the match numbered `2` (line 0) exactly line 0.  Instead the
code emits no record numbered `1` at all, and the record numbered `2`
spans lines 0–1, swallowing the line of match `1`. -/
theorem span_scan_order_counterexample :
    extract_questions_from_text "2. x\n1. y\n3. z" =
      [⟨"2", "2. x\n1. y", 0, 1⟩, ⟨"3", "3. z", 2, 2⟩] ∧
    (extract_questions_from_text "2. x\n1. y\n3. z").map QuestionRec.number = ["2", "3"] := by
  constructor
  · decide
  · decide

theorem insertByNumber_perm (q : PotentialQ) :
    ∀ l, (insertByNumber q l).Perm (q :: l) := by
  intro l
  induction l with
  | nil => exact List.Perm.refl _
  | cons p rest ih =>
    rw [insertByNumber]
    by_cases h : q.number < p.number
    · rw [if_pos h]
    · rw [if_neg h]
      exact (ih.cons p).trans (List.Perm.swap q p rest)

theorem sortByNumber_perm : ∀ l, (sortByNumber l).Perm l := by
  intro l
  induction l with
  | nil => exact List.Perm.refl _
  | cons q rest ih =>
    rw [sortByNumber]
    exact (insertByNumber_perm q (sortByNumber rest)).trans (ih.cons q)

theorem insertByNumber_sorted (q : PotentialQ) :
    ∀ l, List.Sorted (fun a b : PotentialQ => a.number ≤ b.number) l →
      List.Sorted (fun a b : PotentialQ => a.number ≤ b.number) (insertByNumber q l) := by
  intro l
  induction l with
  | nil => intro _; simp [insertByNumber]
  | cons p rest ih =>
    intro hs
    rw [List.sorted_cons] at hs
    rw [insertByNumber]
    by_cases h : q.number < p.number
    · rw [if_pos h, List.sorted_cons]
      refine ⟨?_, List.sorted_cons.mpr hs⟩
      intro b hb
      rcases List.mem_cons.mp hb with rfl | hb'
      · exact Nat.le_of_lt h
      · exact Nat.le_trans (Nat.le_of_lt h) (hs.1 b hb')
    · rw [if_neg h, List.sorted_cons]
      refine ⟨?_, ih hs.2⟩
      intro b hb
      rcases List.mem_cons.mp ((insertByNumber_perm q rest).mem_iff.mp hb) with rfl | hb'
      · exact Nat.le_of_not_lt h
      · exact hs.1 b hb'

theorem sortByNumber_sorted :
    ∀ l, List.Sorted (fun a b : PotentialQ => a.number ≤ b.number) (sortByNumber l) := by
  intro l
  induction l with
  | nil => simp [sortByNumber]
  | cons q rest ih =>
    rw [sortByNumber]
    exact insertByNumber_sorted q (sortByNumber rest) ih

/-- **C4, amended** — after deduplication the surviving matches are
sorted by ascending question number (a permutation of the deduplicated
list), and each surviving match's span runs from its own detected start
line up to (but not including) the start line of the next surviving
match **in that number order** — end of text for the last — a record
being dropped when its span holds no nonblank line. -/
theorem spans_follow_number_order (full_text : String) :
    extract_questions_from_text full_text =
      spansByNumberOrder (pyLines full_text)
        (sortByNumber (dedupByNumber (potentialQuestions (pyLines full_text)))) ∧
    List.Sorted (fun a b : PotentialQ => a.number ≤ b.number)
      (sortByNumber (dedupByNumber (potentialQuestions (pyLines full_text)))) ∧
    (sortByNumber (dedupByNumber (potentialQuestions (pyLines full_text)))).Perm
      (dedupByNumber (potentialQuestions (pyLines full_text))) :=
  ⟨buildQuestionRecords_eq_spans _ _,
   sortByNumber_sorted _,
   sortByNumber_perm _⟩

/-- Witness for C4's amended span rule at a concrete out-of-order
text. -/
theorem spans_follow_number_order_witness :
    extract_questions_from_text "2. x\n1. y\n3. z" =
      spansByNumberOrder (pyLines "2. x\n1. y\n3. z")
        (sortByNumber (dedupByNumber (potentialQuestions (pyLines "2. x\n1. y\n3. z")))) :=
  (spans_follow_number_order "2. x\n1. y\n3. z").1

end ExtractorTheorems

section VectorStoreTheorems

/-- **C1** — evaluation at the failing input: starting from a fresh
initialized store, adding one exam question gives the parity
`len(documents) = len(metadata) = index.ntotal = 1`; deleting that one
document (the delete reports success) leaves both lists empty while
`ntotal` stays `1`, because `_rebuild_index` early-returns on an empty
document list instead of resetting the index.  The invariant
`len(documents) == len(metadata) == index.ntotal` is therefore violated
by a completed delete of the last remaining document. -/
theorem delete_last_document_breaks_parity :
    ((add_exam_question ⟨true, [], [], 0⟩ ⟨"s", "q", "", "", ""⟩).1.documents.length = 1 ∧
     (add_exam_question ⟨true, [], [], 0⟩ ⟨"s", "q", "", "", ""⟩).1.metadata.length = 1 ∧
     (add_exam_question ⟨true, [], [], 0⟩ ⟨"s", "q", "", "", ""⟩).1.ntotal = 1) ∧
    (delete_document (add_exam_question ⟨true, [], [], 0⟩ ⟨"s", "q", "", "", ""⟩).1
        (md5Model ("s" ++ "q"))).2 = true ∧
    (delete_document (add_exam_question ⟨true, [], [], 0⟩ ⟨"s", "q", "", "", ""⟩).1
        (md5Model ("s" ++ "q"))).1.documents.length = 0 ∧
    (delete_document (add_exam_question ⟨true, [], [], 0⟩ ⟨"s", "q", "", "", ""⟩).1
        (md5Model ("s" ++ "q"))).1.metadata.length = 0 ∧
    (delete_document (add_exam_question ⟨true, [], [], 0⟩ ⟨"s", "q", "", "", ""⟩).1
        (md5Model ("s" ++ "q"))).1.ntotal = 1 := by
  decide

/-- The question-search loop never collects more than `n` results once
fewer than `n` are accumulated (the `break` at `n_results`). -/
theorem searchQuestionsLoop_length_le (vs : VectorStore) (subject : Option String)
    (n : Nat) : ∀ (out : List (ℚ × Int)) (acc res : List SearchResult),
    acc.length < n → searchQuestionsLoop vs subject n out acc = some res →
    res.length ≤ n := by
  intro out
  induction out with
  | nil =>
    intro acc res hlt hs
    simp only [searchQuestionsLoop, Option.some.injEq] at hs
    subst hs
    omega
  | cons p rest ih =>
    intro acc res hlt hs
    obtain ⟨d, idx⟩ := p
    rw [searchQuestionsLoop] at hs
    split at hs
    · exact ih acc res hlt hs
    · split at hs
      · exact absurd hs (by simp)
      · split at hs
        · exact ih acc res hlt hs
        · split at hs
          · exact ih acc res hlt hs
          · split at hs
            · exact absurd hs (by simp)
            · simp only [List.length_append, List.length_singleton] at hs
              split at hs
              · simp only [Option.some.injEq] at hs
                subst hs
                simp only [List.length_append, List.length_singleton]
                omega
              · refine ih _ res ?_ hs
                simp only [List.length_append, List.length_singleton]
                omega

/-- The chunk-search loop adds at most one result per FAISS row. -/
theorem searchChunksLoop_length_le (ps : ChunkStore) :
    ∀ (out : List (ℚ × Int)) (i : Nat) (acc res : List ChunkSearchResult),
    searchChunksLoop ps out i acc = some res →
    res.length ≤ acc.length + out.length := by
  intro out
  induction out with
  | nil =>
    intro i acc res hs
    simp only [searchChunksLoop, Option.some.injEq] at hs
    subst hs
    simp
  | cons p rest ih =>
    intro i acc res hs
    obtain ⟨d, idx⟩ := p
    rw [searchChunksLoop] at hs
    split at hs
    · split at hs
      · have := ih _ _ res hs
        simp only [List.length_append, List.length_singleton] at this
        simp only [List.length_cons]
        omega
      · exact absurd hs (by simp)
    · have := ih _ _ res hs
      simp only [List.length_cons]
      omega

/-- On an empty chunk store the loop either collects nothing or raises
(`documents[idx]` on an empty list). -/
theorem searchChunksLoop_empty (ps : ChunkStore) (hd : ps.documents = [])
    (hm : ps.metadata = []) :
    ∀ (out : List (ℚ × Int)) (i : Nat) (acc : List ChunkSearchResult),
    searchChunksLoop ps out i acc = some acc ∨ searchChunksLoop ps out i acc = none := by
  intro out
  induction out with
  | nil => intro i acc; exact Or.inl rfl
  | cons p rest ih =>
    intro i acc
    obtain ⟨d, idx⟩ := p
    rw [searchChunksLoop]
    split
    · have hget : pyGet ps.documents idx = none := by
        rw [hd]
        simp [pyGet]
      rw [hget]
      exact Or.inr rfl
    · exact ih (i + 1) acc

/-- **C7** — both search entry points return the empty list (never
raise) on an uninitialized or empty store, and never return more than
`k` results on any store when FAISS returns its contractual number of
rows (`min(2k, len(documents))` rows for the question search, `k` rows
for the chunk search). -/
theorem search_empty_or_uninitialized (vs : VectorStore) (ps : ChunkStore)
    (query : String) (subject : Option String) (k : Nat) (out : List (ℚ × Int)) :
    (vs.initialized = false → search_similar_questions vs query subject k out = []) ∧
    (vs.documents.length = 0 → search_similar_questions vs query subject k out = []) ∧
    (ps.initialized = false → search_similar_chunks ps query k out = []) ∧
    (ps.initialized = true → ps.documents = [] → ps.metadata = [] →
      search_similar_chunks ps query k out = []) ∧
    (out.length = min (2 * k) vs.documents.length →
      (search_similar_questions vs query subject k out).length ≤ k) ∧
    (out.length = k → (search_similar_chunks ps query k out).length ≤ k) := by
  refine ⟨?_, ?_, ?_, ?_, ?_, ?_⟩
  · intro h; simp [search_similar_questions, h]
  · intro h; simp [search_similar_questions, h]
  · intro h; simp [search_similar_chunks, h]
  · intro hinit hd hm
    rw [search_similar_chunks]
    rcases searchChunksLoop_empty ps hd hm out 0 [] with he | he
    · simp [hinit, he]
    · simp [hinit, he]
  · intro hlen
    rw [search_similar_questions]
    by_cases h1 : ¬ vs.initialized
    · simp [h1]
    · by_cases h2 : vs.documents.length = 0
      · simp [h1, h2]
      · simp only [h1, h2, if_false]
        cases hs : searchQuestionsLoop vs subject k out [] with
        | none => simp
        | some res =>
          simp only
          by_cases hk : k = 0
          · subst hk
            have : out.length = 0 := by omega
            have hout : out = [] := List.length_eq_zero.mp this
            subst hout
            simp only [searchQuestionsLoop, Option.some.injEq] at hs
            subst hs
            simp
          · exact searchQuestionsLoop_length_le vs subject k out [] res
              (by simp; omega) hs
  · intro hlen
    rw [search_similar_chunks]
    by_cases h1 : ¬ ps.initialized
    · simp [h1]
    · simp only [h1, if_false]
      cases hs : searchChunksLoop ps out 0 [] with
      | none => simp
      | some res =>
        simp only
        have := searchChunksLoop_length_le ps out 0 [] res hs
        simpa [hlen] using this

/-- Witness for C7: an uninitialized store and an initialized empty
store with FAISS `-1` padding rows. -/
theorem search_empty_or_uninitialized_witness :
    search_similar_questions ⟨false, [], [], 0⟩ "q" none 5 [] = [] ∧
    search_similar_chunks ⟨true, [], [], 0⟩ "q" 2 [(17, -1), (17, -1)] = [] :=
  ⟨(search_empty_or_uninitialized ⟨false, [], [], 0⟩ ⟨true, [], [], 0⟩
      "q" none 5 []).1 rfl,
   (search_empty_or_uninitialized ⟨false, [], [], 0⟩ ⟨true, [], [], 0⟩
      "q" none 2 [(17, -1), (17, -1)]).2.2.2.1 rfl rfl rfl⟩

theorem enumFrom_map_reindex : ∀ (ms : List DocMeta) (i : Nat),
    (List.enumFrom i ms).map (fun p => { p.2 with embedding_id := p.1 }) =
      reindexMetaGo i ms := by
  intro ms
  induction ms with
  | nil => intro i; rfl
  | cons m rest ih =>
    intro i
    simp only [List.enumFrom, List.map_cons, reindexMetaGo]
    rw [ih]

theorem reindexMeta_eq_go (ms : List DocMeta) : reindexMeta ms = reindexMetaGo 0 ms :=
  enumFrom_map_reindex ms 0

theorem reindexMetaGo_length : ∀ (ms : List DocMeta) (i : Nat),
    (reindexMetaGo i ms).length = ms.length := by
  intro ms
  induction ms with
  | nil => intro i; rfl
  | cons m rest ih => intro i; simp [reindexMetaGo, ih]

theorem reindexMetaGo_getElem : ∀ (ms : List DocMeta) (i j : Nat) (m : DocMeta),
    (reindexMetaGo i ms)[j]? = some m → m.embedding_id = i + j := by
  intro ms
  induction ms with
  | nil => intro i j m h; simp [reindexMetaGo] at h
  | cons m0 rest ih =>
    intro i j m h
    cases j with
    | zero =>
      simp only [reindexMetaGo, List.getElem?_cons_zero, Option.some.injEq] at h
      subst h
      rfl
    | succ j' =>
      simp only [reindexMetaGo, List.getElem?_cons_succ] at h
      have := ih (i + 1) j' m h
      omega

theorem reindexMetaGo_filter_map_id (T : String) : ∀ (ms : List DocMeta) (i : Nat),
    (((reindexMetaGo i ms).filter (fun m => m.subject = T)).map (·.id)) =
      ((ms.filter (fun m => m.subject = T)).map (·.id)) := by
  intro ms
  induction ms with
  | nil => intro i; rfl
  | cons m rest ih =>
    intro i
    simp only [reindexMetaGo, List.filter_cons]
    by_cases hm : m.subject = T
    · simp only [hm]
      simp [ih]
    · simp only [hm]
      simp [ih, hm]

theorem reindexMetaGo_mem : ∀ (ms : List DocMeta) (i : Nat),
    ∀ m' ∈ reindexMetaGo i ms, ∃ m ∈ ms, m'.id = m.id ∧ m'.subject = m.subject := by
  intro ms
  induction ms with
  | nil => intro i m' h; simp [reindexMetaGo] at h
  | cons m0 rest ih =>
    intro i m' h
    rcases List.mem_cons.mp h with rfl | h'
    · exact ⟨m0, by simp, rfl, rfl⟩
    · obtain ⟨m, hm, h1, h2⟩ := ih (i + 1) m' h'
      exact ⟨m, by simp [hm], h1, h2⟩

theorem findIdx?_first_match (p : DocMeta → Bool) :
    ∀ (pre : List DocMeta) (m : DocMeta) (post : List DocMeta) (j : Nat),
      (∀ x ∈ pre, ¬ p x) → p m →
      List.findIdx? p (pre ++ m :: post) j = some (j + pre.length) := by
  intro pre
  induction pre with
  | nil =>
    intro m post j _ hm
    simp [List.findIdx?_cons, hm]
  | cons a pre' ih =>
    intro m post j hpre hm
    rw [List.cons_append, List.findIdx?_cons, if_neg (by
      simpa using hpre a (by simp))]
    rw [ih m post (j + 1) (fun x hx => hpre x (by simp [hx])) hm]
    congr 1
    simp only [List.length_cons]
    omega

theorem eraseIdx_append_cons {α : Type*} : ∀ (pre : List α) (m : α) (post : List α),
    (pre ++ m :: post).eraseIdx pre.length = pre ++ post := by
  intro pre
  induction pre with
  | nil => intro m post; rfl
  | cons a pre' ih =>
    intro m post
    show a :: (pre' ++ m :: post).eraseIdx pre'.length = a :: (pre' ++ post)
    rw [ih]

theorem filter_eq_cons_split {α : Type*} (p : α → Bool) :
    ∀ {l : List α} {b : α} {bs : List α}, l.filter p = b :: bs →
      ∃ pre post, l = pre ++ b :: post ∧ (∀ x ∈ pre, ¬ p x) ∧ post.filter p = bs := by
  intro l
  induction l with
  | nil => intro b bs h; simp at h
  | cons a rest ih =>
    intro b bs h
    rw [List.filter_cons] at h
    split at h
    · obtain ⟨h1, h2⟩ : a = b ∧ rest.filter p = bs := by
        constructor
        · exact (List.cons.injEq _ _ _ _ ▸ h).1
        · exact (List.cons.injEq _ _ _ _ ▸ h).2
      subst h1
      exact ⟨[], rest, rfl, by simp, h2⟩
    · rename_i hpa
      obtain ⟨pre, post, hsplit, hpre, hpost⟩ := ih h
      refine ⟨a :: pre, post, by rw [hsplit, List.cons_append], ?_, hpost⟩
      intro x hx
      rcases List.mem_cons.mp hx with rfl | hx'
      · exact hpa
      · exact hpre x hx'

/-- Every result of the question-search loop draws its metadata from
the store's metadata list (or was already accumulated). -/
theorem searchQuestionsLoop_metadata_mem (vs : VectorStore) (subject : Option String)
    (n : Nat) : ∀ (out : List (ℚ × Int)) (acc res : List SearchResult),
    searchQuestionsLoop vs subject n out acc = some res →
    ∀ r ∈ res, r ∈ acc ∨ r.metadata ∈ vs.metadata := by
  intro out
  induction out with
  | nil =>
    intro acc res hs r hr
    simp only [searchQuestionsLoop, Option.some.injEq] at hs
    subst hs
    exact Or.inl hr
  | cons p rest ih =>
    intro acc res hs r hr
    obtain ⟨d, idx⟩ := p
    rw [searchQuestionsLoop] at hs
    split at hs
    · exact ih acc res hs r hr
    · split at hs
      · exact absurd hs (by simp)
      · rename_i m hm
        have hmmem : m ∈ vs.metadata := by
          obtain ⟨hlt, he⟩ := List.getElem?_eq_some.mp hm
          exact he ▸ List.getElem_mem hlt
        split at hs
        · exact ih acc res hs r hr
        · split at hs
          · exact ih acc res hs r hr
          · split at hs
            · exact absurd hs (by simp)
            · rename_i doc hdoc
              simp only [List.length_append, List.length_singleton] at hs
              split at hs
              · simp only [Option.some.injEq] at hs
                subst hs
                rcases List.mem_append.mp hr with hr' | hr'
                · exact Or.inl hr'
                · simp only [List.mem_singleton] at hr'
                  subst hr'
                  exact Or.inr hmmem
              · rcases ih _ res hs r hr with hr' | hr'
                · rcases List.mem_append.mp hr' with hr'' | hr''
                  · exact Or.inl hr''
                  · simp only [List.mem_singleton] at hr''
                    subst hr''
                    exact Or.inr hmmem
                · exact Or.inr hr'

/-- Core induction for the amended C6: folding `delete_document` over
the tenant's collected ids removes exactly the tenant's records,
provided equal ids imply equal subjects (no id collision between
different tenants). -/
theorem delete_fold_spec (T : String) :
    ∀ (n : Nat) (vs : VectorStore),
      (vs.metadata.filter (fun m => m.subject = T)).length = n →
      vs.initialized = true →
      vs.documents.length = vs.metadata.length →
      (∀ m1 ∈ vs.metadata, ∀ m2 ∈ vs.metadata, m1.id = m2.id → m1.subject = m2.subject) →
      (∀ (i : Nat) (m : DocMeta), vs.metadata[i]? = some m → m.embedding_id = i) →
      (∀ m ∈ (((vs.metadata.filter (fun m => m.subject = T)).map (·.id)).foldl
          (fun s i => (delete_document s i).1) vs).metadata, m.subject ≠ T)
      ∧ (((vs.metadata.filter (fun m => m.subject = T)).map (·.id)).foldl
          (fun s i => (delete_document s i).1) vs).documents.length =
        (((vs.metadata.filter (fun m => m.subject = T)).map (·.id)).foldl
          (fun s i => (delete_document s i).1) vs).metadata.length
      ∧ (∀ (i : Nat) (m : DocMeta),
          (((vs.metadata.filter (fun m => m.subject = T)).map (·.id)).foldl
            (fun s i => (delete_document s i).1) vs).metadata[i]? = some m →
          m.embedding_id = i) := by
  intro n
  induction n with
  | zero =>
    intro vs hn hinit hlen hids hemb
    have hfil : vs.metadata.filter (fun m => m.subject = T) = [] :=
      List.length_eq_zero.mp hn
    rw [hfil]
    simp only [List.map_nil, List.foldl_nil]
    refine ⟨?_, hlen, hemb⟩
    intro m hm hsub
    have hmem : m ∈ vs.metadata.filter (fun m => m.subject = T) :=
      List.mem_filter.mpr ⟨hm, by simp [hsub]⟩
    rw [hfil] at hmem
    exact absurd hmem (by simp)
  | succ n ih =>
    intro vs hn hinit hlen hids hemb
    cases hfe : vs.metadata.filter (fun m => m.subject = T) with
    | nil => rw [hfe] at hn; simp at hn
    | cons e es =>
      obtain ⟨pre, post, hsplit, hpre, hpost⟩ := filter_eq_cons_split _ hfe
      have heT : e.subject = T := by
        have h1 : e ∈ vs.metadata.filter (fun m => m.subject = T) := by rw [hfe]; simp
        have h2 := (List.mem_filter.mp h1).2
        simpa using h2
      have hepre : ∀ x ∈ pre, ¬ (x.id = e.id) := by
        intro x hx hxid
        have hxm : x ∈ vs.metadata := by rw [hsplit]; simp [hx]
        have hem : e ∈ vs.metadata := by rw [hsplit]; simp
        have hxs := hids x hxm e hem hxid
        have hcontra : x.subject = T := hxs.trans heT
        have hnp := hpre x hx
        simp [hcontra] at hnp
      have hfind : vs.metadata.findIdx? (fun m => m.id = e.id) = some pre.length := by
        rw [hsplit]
        have h := findIdx?_first_match (fun m => decide (m.id = e.id)) pre e post 0
          (fun x hx => by simpa using hepre x hx) (by simp)
        simpa using h
      have hlenpre : pre.length < vs.documents.length := by
        rw [hlen, hsplit]
        simp only [List.length_append, List.length_cons]
        omega
      have hdel : (delete_document vs e.id).1 =
          rebuild_index
            { vs with
              documents := vs.documents.eraseIdx pre.length,
              metadata := pre ++ post } := by
        simp only [delete_document, hfind]
        rw [if_neg (show ¬ (vs.documents.length ≤ pre.length) by omega)]
        rw [hsplit, eraseIdx_append_cons]
      have hfilpre : pre.filter (fun m => m.subject = T) = [] :=
        List.filter_eq_nil_iff.mpr hpre
      have hfilPP : (pre ++ post).filter (fun m => m.subject = T) = es := by
        rw [List.filter_append, hfilpre, hpost]
        rfl
      have hes_len : es.length = n := by
        rw [hfe] at hn
        simp only [List.length_cons] at hn
        omega
      have hlenD : (vs.documents.eraseIdx pre.length).length = (pre ++ post).length := by
        rw [List.length_eraseIdx, if_pos hlenpre, hlen, hsplit]
        simp only [List.length_append, List.length_cons]
        omega
      simp only [List.map_cons, List.foldl_cons]
      rw [hdel]
      by_cases hD : vs.documents.eraseIdx pre.length = []
      · -- the delete emptied the store: rebuild is a no-op and nothing remains
        have hpp : pre ++ post = [] := by
          have h0 : (pre ++ post).length = 0 := by rw [← hlenD, hD]; rfl
          exact List.length_eq_zero.mp h0
        have hes : es = [] := by rw [← hfilPP, hpp]; rfl
        have hreb : rebuild_index
            { vs with
              documents := vs.documents.eraseIdx pre.length,
              metadata := pre ++ post } =
            { vs with
              documents := vs.documents.eraseIdx pre.length,
              metadata := pre ++ post } := by
          rw [rebuild_index, if_pos (Or.inr hD)]
        rw [hreb, hes]
        simp only [List.map_nil, List.foldl_nil]
        refine ⟨?_, ?_, ?_⟩
        · intro m hm
          simp [hpp] at hm
        · show (vs.documents.eraseIdx pre.length).length = (pre ++ post).length
          exact hlenD
        · intro i m hm
          simp [hpp] at hm
      · -- the rebuild renumbers the remaining records
        have hreb : rebuild_index
            { vs with
              documents := vs.documents.eraseIdx pre.length,
              metadata := pre ++ post } =
            { vs with
              documents := vs.documents.eraseIdx pre.length,
              metadata := reindexMetaGo 0 (pre ++ post),
              ntotal := (vs.documents.eraseIdx pre.length).length } := by
          rw [rebuild_index, if_neg (by simp [hinit, hD])]
          rw [reindexMeta_eq_go]
        rw [hreb]
        have hmem1 : ∀ m' ∈ reindexMetaGo 0 (pre ++ post),
            ∃ m ∈ vs.metadata, m'.id = m.id ∧ m'.subject = m.subject := by
          intro m' hm'
          obtain ⟨m, hm, h1, h2⟩ := reindexMetaGo_mem (pre ++ post) 0 m' hm'
          refine ⟨m, ?_, h1, h2⟩
          rw [hsplit]
          rcases List.mem_append.mp hm with h | h
          · exact List.mem_append.mpr (Or.inl h)
          · exact List.mem_append.mpr (Or.inr (by simp [h]))
        have hidmap : ((reindexMetaGo 0 (pre ++ post)).filter
            (fun m => m.subject = T)).map (·.id) = es.map (·.id) := by
          rw [reindexMetaGo_filter_map_id, hfilPP]
        have hn1 : ((reindexMetaGo 0 (pre ++ post)).filter
            (fun m => m.subject = T)).length = n := by
          have hl : (((reindexMetaGo 0 (pre ++ post)).filter
              (fun m => m.subject = T)).map (·.id)).length = (es.map (·.id)).length := by
            rw [hidmap]
          simp only [List.length_map] at hl
          omega
        have happ := ih
          { vs with
            documents := vs.documents.eraseIdx pre.length,
            metadata := reindexMetaGo 0 (pre ++ post),
            ntotal := (vs.documents.eraseIdx pre.length).length }
          hn1 hinit
          (by
            show (vs.documents.eraseIdx pre.length).length =
              (reindexMetaGo 0 (pre ++ post)).length
            rw [reindexMetaGo_length]
            exact hlenD)
          (by
            intro m1 hm1 m2 hm2 hid
            obtain ⟨a1, ha1, hi1, hs1⟩ := hmem1 m1 hm1
            obtain ⟨a2, ha2, hi2, hs2⟩ := hmem1 m2 hm2
            rw [hs1, hs2]
            exact hids a1 ha1 a2 ha2 ((hi1.symm.trans hid).trans hi2))
          (by
            intro i m hm
            have h := reindexMetaGo_getElem (pre ++ post) 0 i m hm
            omega)
        rw [show ({ vs with
            documents := vs.documents.eraseIdx pre.length,
            metadata := reindexMetaGo 0 (pre ++ post),
            ntotal := (vs.documents.eraseIdx pre.length).length } : VectorStore).metadata =
          reindexMetaGo 0 (pre ++ post) from rfl, hidmap] at happ
        exact happ

/-- **C6, counterexample** — document ids are the md5 of the
*concatenation* subject+question, so `add_exam_question` of
`{subject: "a", question: "bc"}` and of `{subject: "ab", question: "c"}`
store two records with the same id (equal md5 inputs — no hash
collision involved).  `delete_exam_data("ab")` collects that id from
the subject-`"ab"` record, but `delete_document` removes the *first*
record carrying it — the subject-`"a"` one — so the subject-`"ab"`
record survives, and a search (FAISS output `[(0, 0)]`, the contractual
`min(2k, len(documents)) = 1` row) returns it. -/
theorem delete_exam_data_counterexample :
    ((search_similar_questions
        (delete_exam_data
          (add_exam_question
            (add_exam_question ⟨true, [], [], 0⟩ ⟨"a", "bc", "", "", ""⟩).1
            ⟨"ab", "c", "", "", ""⟩).1
          "ab").1
        "q" none 5 [(0, 0)]).map (fun r => r.metadata.subject)) = ["ab"] ∧
    (delete_exam_data
        (add_exam_question
          (add_exam_question ⟨true, [], [], 0⟩ ⟨"a", "bc", "", "", ""⟩).1
          ⟨"ab", "c", "", "", ""⟩).1
        "ab").2 = true := by
  constructor
  · decide
  · decide

/-- **C6, amended** — provided no two stored records carry the same id
with different subjects (the id is the md5 of the subject+question
concatenation, so distinct tenants can collide only through equal
concatenations), `delete_exam_data(T)` removes every subject-`T`
record: afterwards no metadata record has subject `T`, every search —
any query, any subject filter, any `k`, any FAISS output — returns
zero results whose metadata subject is `T`, and the remaining records'
`embedding_id` fields again equal their array positions. -/
theorem delete_exam_data_removes_tenant (vs : VectorStore) (T : String)
    (hinit : vs.initialized = true)
    (hlen : vs.documents.length = vs.metadata.length)
    (hids : ∀ m1 ∈ vs.metadata, ∀ m2 ∈ vs.metadata, m1.id = m2.id → m1.subject = m2.subject)
    (hemb : ∀ (i : Nat) (m : DocMeta), vs.metadata[i]? = some m → m.embedding_id = i) :
    (∀ m ∈ (delete_exam_data vs T).1.metadata, m.subject ≠ T) ∧
    (∀ (query : String) (subject : Option String) (k : Nat) (out : List (ℚ × Int)),
      ∀ r ∈ search_similar_questions (delete_exam_data vs T).1 query subject k out,
        r.metadata.subject ≠ T) ∧
    (∀ (i : Nat) (m : DocMeta), (delete_exam_data vs T).1.metadata[i]? = some m →
      m.embedding_id = i) := by
  obtain ⟨h1, h2, h3⟩ := delete_fold_spec T _ vs rfl hinit hlen hids hemb
  have hdel : (delete_exam_data vs T).1 =
      ((vs.metadata.filter (fun m => m.subject = T)).map (·.id)).foldl
        (fun s i => (delete_document s i).1) vs := by
    simp only [delete_exam_data]
    split
    · rename_i hids0
      rw [hids0]
      rfl
    · rfl
  rw [hdel]
  refine ⟨h1, ?_, h3⟩
  intro query subject k out r hr
  rw [search_similar_questions] at hr
  split at hr
  · exact absurd hr (by simp)
  · split at hr
    · exact absurd hr (by simp)
    · cases hs : searchQuestionsLoop
          (((vs.metadata.filter (fun m => m.subject = T)).map (·.id)).foldl
            (fun s i => (delete_document s i).1) vs) subject k out [] with
      | none => rw [hs] at hr; exact absurd hr (by simp)
      | some res =>
        rw [hs] at hr
        simp only at hr
        rcases searchQuestionsLoop_metadata_mem _ subject k out [] res hs r hr with h | h
        · exact absurd h (by simp)
        · exact h1 r.metadata h

/-- Witness for the amended C6: a store with two distinct-id records
for tenants `s1` and `s2`; deleting tenant `s1` leaves only the `s2`
record, whose subject (by the theorem, applied at that surviving
record) is not `s1`. -/
theorem delete_exam_data_removes_tenant_witness :
    (⟨"s2q2", "exam_question", "s2", "", 0⟩ : DocMeta).subject ≠ "s1" :=
  (delete_exam_data_removes_tenant
    (add_exam_question
      (add_exam_question ⟨true, [], [], 0⟩ ⟨"s1", "q1", "", "", ""⟩).1
      ⟨"s2", "q2", "", "", ""⟩).1
    "s1" (by decide) (by decide) (by decide)
    (by
      have hmeta : (add_exam_question
          (add_exam_question ⟨true, [], [], 0⟩ ⟨"s1", "q1", "", "", ""⟩).1
          ⟨"s2", "q2", "", "", ""⟩).1.metadata =
          [⟨"s1q1", "exam_question", "s1", "", 0⟩,
           ⟨"s2q2", "exam_question", "s2", "", 1⟩] := by decide
      intro i m h
      rw [hmeta] at h
      cases i with
      | zero =>
        simp only [List.getElem?_cons_zero, Option.some.injEq] at h
        subst h
        rfl
      | succ i1 =>
        cases i1 with
        | zero =>
          simp only [List.getElem?_cons_succ, List.getElem?_cons_zero,
            Option.some.injEq] at h
          subst h
          rfl
        | succ i2 => simp at h)).1
    ⟨"s2q2", "exam_question", "s2", "", 0⟩ (by decide)

end VectorStoreTheorems

end KtdsJinseop
